import Mathlib

/-!
Verification development for the audit-friendly bingo generator.

This file gives a shallow embedding, in Lean 4, of the card-generation core of
the repository (`src/bingo_gen`): the frequency planner (`layout.py`), the
feasibility checker (`feasibility.py`), the uniqueness signatures
(`uniqueness.py`), the deterministic BIBD-like builder (`builder/bibd.py`),
the verifier statistics (`verify.py`) and the heuristic card construction
engine (`builder/heuristic.py`).  Python dictionaries keyed by the pool
numbers `1..R` are embedded as total functions that are `0` outside `[1, R]`;
Python exceptions are embedded as `Except String`; the seeded random stream
(`rng.py`, an external collaborator per the specification) is embedded as an
abstract stream of choices satisfying exactly the contracts the source relies
on (a shuffle permutes its input, sampling without replacement draws from its
input).  Machine integers do not overflow in CPython, so `Nat`/`Int` model
them directly.
-/

/-- A card: an `m × n` matrix of numbers, stored as a list of rows
(`List[List[int]]` in the source). -/
abbrev Card := List (List Nat)

/-- Python's `sorted` on a list of numbers (used to form row/column set
signatures as sorted tuples). -/
def sortNat (l : List Nat) : List Nat := l.insertionSort (· ≤ ·)

/-- `row_sets_of_card` from `uniqueness.py`: the sorted signature of every row. -/
def row_sets_of_card (matrix : Card) : List (List Nat) := matrix.map sortNat

/-- `col_sets_of_card` from `uniqueness.py`: the sorted signature of every
column; an empty matrix has no columns.  Cell `matrix[i][j]` is embedded as
`getD j 0` (all rows have length `n` wherever the source calls this). -/
def col_sets_of_card (matrix : Card) : List (List Nat) :=
  match matrix with
  | [] => []
  | r0 :: _ => (List.range r0.length).map fun j => sortNat (matrix.map fun row => row.getD j 0)

/-- `matrix_hash` from `uniqueness.py` digests the canonical JSON serialization
of the matrix with SHA-256.  The JSON serialization is injective on integer
matrices, and the digest itself is an external collaborator, so the hash is
embedded as the canonical content itself: two matrices get the same hash value
exactly when they are equal cell-by-cell. -/
def matrix_hash (matrix : Card) : Card := matrix

/-- `build_global_frequencies` from `layout.py`.  Returns the per-number
target-use map for the pool `1..R` (a total function, `0` outside `[1, R]`).
`P // R` with `R = 0` raises `ZeroDivisionError` in Python, embedded as an
`Except.error`; an unsupported mode raises `ValueError`.  `position_balance`
is accepted and ignored, exactly as in the source. -/
def build_global_frequencies (R T m n : Nat) (mode : String)
    (position_balance : Bool := false) : Except String (Nat → Int) :=
  let _ := position_balance
  if R = 0 then .error "ZeroDivisionError: integer division or modulo by zero"
  else
    let P := T * m * n
    let base := P / R
    let remainder := P % R
    if mode = "strict" then
      .ok fun x => if 1 ≤ x ∧ x ≤ R then (base : Int) else 0
    else if mode = "near" then
      .ok fun x => if 1 ≤ x ∧ x ≤ R then (base : Int) + (if x ≤ remainder then 1 else 0) else 0
    else .error "mode must be strict or near"

/-- `Feasibility` from `feasibility.py`. -/
structure Feasibility where
  feasible : Bool
  reasons : List String
deriving DecidableEq, Repr

/-- `check_uniformity_strict` from `feasibility.py` (defined for `R ≥ 1`;
Python raises `ZeroDivisionError` at `R = 0`). -/
def check_uniformity_strict (R T m n : Nat) : Feasibility :=
  let P := T * m * n
  if P % R = 0 then ⟨true, []⟩ else ⟨false, ["P % R != 0 for strict uniformity"]⟩

/-- `compute_near_uniform_targets` from `feasibility.py`: `(base, remainder)`
of the near-uniform plan (defined for `R ≥ 1`). -/
def compute_near_uniform_targets (R T m n : Nat) : Nat × Nat :=
  let P := T * m * n
  (P / R, P % R)

/-- `check_uniqueness_capacity` from `feasibility.py`: the row-set check
`T*m ≤ C(R,n)` runs only when `row_sets` is requested, the column-set check
`T*n ≤ C(R,m)` only when `col_sets` is requested; each failing check appends
its reason string.  `math.comb` is `Nat.choose`.  The source sorts and
deduplicates the scope first, which changes neither membership tests nor the
result. -/
def check_uniqueness_capacity (R T m n : Nat) (unique_scope : List String) : Feasibility :=
  let ok_row : Bool := if "row_sets" ∈ unique_scope then decide (T * m ≤ R.choose n) else true
  let ok_col : Bool := if "col_sets" ∈ unique_scope then decide (T * n ≤ R.choose m) else true
  let reasons : List String :=
    (if "row_sets" ∈ unique_scope ∧ ¬ T * m ≤ R.choose n
      then ["row_sets capacity exceeded: T*m > C(R,n)"] else []) ++
    (if "col_sets" ∈ unique_scope ∧ ¬ T * n ≤ R.choose m
      then ["col_sets capacity exceeded: T*n > C(R,m)"] else [])
  ⟨ok_row && ok_col, reasons⟩

/-- `_gcd` from `builder/bibd.py` is Euclid's algorithm by the loop
`while b: a, b = b, a % b`, which computes `Nat.gcd`. -/
def _gcd (a b : Nat) : Nat := Nat.gcd a b

/-- The loop body of `_find_coprime_step`: advance `k` by
`k = (k + 1) % R or 1` until `gcd(R, k) = 1`, at most `R` times, else `1`. -/
def _find_coprime_loop (R : Nat) : Nat → Nat → Nat
  | 0, _ => 1
  | fuel + 1, k =>
    if _gcd R k = 1 then k
    else _find_coprime_loop R fuel (if (k + 1) % R = 0 then 1 else (k + 1) % R)

/-- `_find_coprime_step` from `builder/bibd.py` (defined for `R ≥ 1`; Python
raises `ZeroDivisionError` at `R = 0`). -/
def _find_coprime_step (R start : Nat) : Nat :=
  _find_coprime_loop R R (max 1 (start % R))

/-- One card of the cyclic construction in `build_cards_bibd`: cell `(i, j)`
of card `t` is `((i*n + j + t*k) % R) + 1`. -/
def bibdCard (R k n m t : Nat) : Card :=
  (List.range m).map fun i => (List.range n).map fun j => (i * n + j + t * k) % R + 1

/-- `build_cards_bibd` from `builder/bibd.py` (defined for `R ≥ 1`).  The
source returns `None` as soon as one produced row contains a duplicate; since
every cell is determined arithmetically, that is observationally the same as
building all cards and returning `None` when any row of any card has a
duplicate (`len(set(row)) != len(row)`). -/
def build_cards_bibd (R T m n : Nat) (uniformity : String) : Option (List Card) :=
  let P := T * m * n
  if uniformity = "strict" ∧ P % R ≠ 0 then none
  else if R < m * n then none
  else
    let k := _find_coprime_step R (m * n + 1)
    let cards := (List.range T).map (bibdCard R k n m)
    if cards.any (fun mat => mat.any fun row => row.dedup.length ≠ row.length) then none
    else some cards

/-- `UniquenessReport` from `verify.py`. -/
structure UniquenessReport where
  row_sets_checked : Bool
  col_sets_checked : Bool
  row_set_collisions : Nat
  col_set_collisions : Nat
deriving DecidableEq, Repr

/-- The collision total of a `Counter` of signatures,
`sum(c - 1 for c in seen.values() if c > 1)` from `count_set_collisions`:
the counter's distinct keys are `sigs.dedup`, the count of each is
`sigs.count`. -/
def collision_count (sigs : List (List Nat)) : Nat :=
  (sigs.dedup.map fun s => if 1 < sigs.count s then sigs.count s - 1 else 0).sum

/-- `count_set_collisions` from `verify.py`: signatures are accumulated over
all cards only for the scopes requested; an unrequested scope keeps an empty
counter, hence reports `0` collisions and `checked = false`. -/
def count_set_collisions (cards : List Card) (scope : List String) : UniquenessReport :=
  let check_rows : Bool := decide ("row_sets" ∈ scope)
  let check_cols : Bool := decide ("col_sets" ∈ scope)
  let rows_seen := if check_rows then (cards.map row_sets_of_card).flatten else []
  let cols_seen := if check_cols then (cards.map col_sets_of_card).flatten else []
  { row_sets_checked := check_rows
    col_sets_checked := check_cols
    row_set_collisions := collision_count rows_seen
    col_set_collisions := collision_count cols_seen }

/-- The deterministic seeded random stream (`rng.py`), an external
collaborator consumed as a black box.  Calls are indexed by a position in the
stream (threaded through the engine as a counter); the structure carries
exactly the contracts the engine relies on: `shuffle` permutes its input
(`random.shuffle`), and `sample` draws `k` positions without replacement from
its input (`random.sample`), so its result consists of elements of the input
and has length `k` whenever `k` does not exceed the input length. -/
structure RngOps where
  shuffle : Nat → List Nat → List Nat
  sample : Nat → List Nat → Nat → List Nat
  shuffle_perm : ∀ c l, List.Perm (shuffle c l) l
  sample_mem : ∀ c l k x, x ∈ sample c l k → x ∈ l
  sample_len : ∀ c l k, k ≤ l.length → (sample c l k).length = k

/-- One concrete stream: the identity shuffle and prefix sampling.  A stream
fully determined by its seed is free to produce these draws, so this is one
admissible behaviour of the black-box RNG contract. -/
def trivialRng : RngOps where
  shuffle := fun _ l => l
  sample := fun _ l k => l.take k
  shuffle_perm := fun _ _ => List.Perm.refl _
  sample_mem := fun _ l k x h => List.take_subset k l h
  sample_len := fun _ l k h => by simpa using h

/-- `horizontal_consecutive_penalty` from `builder/heuristic.py`:
`sum(1 for a, b in zip(arr, arr[1:]) if abs(a - b) == 1)`. -/
def horizontal_consecutive_penalty (arr : List Nat) : Nat :=
  ((arr.zip arr.tail).filter fun p => max p.1 p.2 - min p.1 p.2 = 1).length

/-- The vertical-anchor part of the penalty:
`sum(1 for j, a in enumerate(anchors) if a is not None and abs(row[j] - a) == 1)`
(anchor entries are card values, never `None`; position `j` pairs `row[j]`
with `anchors[j]`, which `zip` does directly since both have length `n`). -/
def anchor_penalty (row : List Nat) (anchors : Option (List Nat)) : Nat :=
  match anchors with
  | none => 0
  | some a => ((row.zip a).filter fun p => max p.1 p.2 - min p.1 p.2 = 1).length

/-- The 50-iteration search loop of `order_row_min_consecutive`: repeatedly
shuffle the row, keep the lowest-scoring ordering seen, stop early at score
`0`.  Returns the best ordering and the advanced stream position. -/
def order_row_loop (rng : RngOps) (row : List Nat) (anchors : Option (List Nat)) :
    Nat → Nat → List Nat → Nat → List Nat × Nat
  | 0, c, best, _ => (best, c)
  | fuel + 1, c, best, best_score =>
    let cand := rng.shuffle c row
    let score := horizontal_consecutive_penalty cand + anchor_penalty cand anchors
    if score < best_score then
      if score = 0 then (cand, c + 1)
      else order_row_loop rng row anchors fuel (c + 1) cand score
    else order_row_loop rng row anchors fuel (c + 1) best best_score

/-- `order_row_min_consecutive` from `builder/heuristic.py`: an initial
shuffle provides the default result, then 50 scored shuffles improve it. -/
def order_row_min_consecutive (rng : RngOps) (row : List Nat)
    (anchors : Option (List Nat)) (c : Nat) : List Nat × Nat :=
  let best := rng.shuffle c row
  order_row_loop rng row anchors 50 (c + 1) best (10 ^ 9)

/-- The 200-iteration random-sample loop of `choose_row`: draw a size-`n`
sample from `top`, skip it if it has a duplicate (`len(set(cand)) != n`) or if
row-set uniqueness is on and its sorted signature is already registered,
otherwise order it and keep the lowest-scoring ordering, stopping early at
score `0`. -/
def sample_loop (rng : RngOps) (unique_scope : List String) (seen_row_sets : List (List Nat))
    (top : List Nat) (anchors : Option (List Nat)) (n : Nat) :
    Nat → Nat → Option (List Nat) → Nat → Option (List Nat) × Nat
  | 0, c, picked, _ => (picked, c)
  | fuel + 1, c, picked, best_score =>
    let cand := rng.sample c top n
    if cand.dedup.length ≠ n then
      sample_loop rng unique_scope seen_row_sets top anchors n fuel (c + 1) picked best_score
    else if "row_sets" ∈ unique_scope ∧ sortNat cand ∈ seen_row_sets then
      sample_loop rng unique_scope seen_row_sets top anchors n fuel (c + 1) picked best_score
    else
      let oc := order_row_min_consecutive rng cand anchors (c + 1)
      let score := horizontal_consecutive_penalty oc.1 + anchor_penalty oc.1 anchors
      if score < best_score then
        if score = 0 then (some oc.1, oc.2)
        else sample_loop rng unique_scope seen_row_sets top anchors n fuel oc.2 (some oc.1) score
      else sample_loop rng unique_scope seen_row_sets top anchors n fuel oc.2 picked best_score

/-- The contiguous-slice fallback of `choose_row`: scan the slices
`pool[i : i+n]` for `i` in `range(max(1, len(pool) - n + 1))`, take the first
one without internal duplicates whose signature is admissible, and order it. -/
def slice_loop (rng : RngOps) (unique_scope : List String) (seen_row_sets : List (List Nat))
    (pool : List Nat) (anchors : Option (List Nat)) (n : Nat) :
    List Nat → Nat → Option (List Nat) × Nat
  | [], c => (none, c)
  | i :: rest, c =>
    let row := (pool.drop i).take n
    if row.dedup.length ≠ n then
      slice_loop rng unique_scope seen_row_sets pool anchors n rest c
    else if "row_sets" ∈ unique_scope ∧ sortNat row ∈ seen_row_sets then
      slice_loop rng unique_scope seen_row_sets pool anchors n rest c
    else
      let oc := order_row_min_consecutive rng row anchors c
      (some oc.1, oc.2)

/-- `choose_row` from `builder/heuristic.py`: fail when the pool is smaller
than `n`; otherwise sample from the top `min(len(pool), max(2n, 50))`
prioritized candidates, falling back to contiguous slices of the pool. -/
def choose_row (rng : RngOps) (unique_scope : List String) (seen_row_sets : List (List Nat))
    (pool : List Nat) (anchors : Option (List Nat)) (n : Nat) (c : Nat) :
    Option (List Nat) × Nat :=
  if pool.length < n then (none, c)
  else
    let top_k := min pool.length (max (2 * n) 50)
    let top := pool.take top_k
    let pc := sample_loop rng unique_scope seen_row_sets top anchors n 200 c none (10 ^ 9)
    match pc.1 with
    | some row => (some row, pc.2)
    | none =>
      slice_loop rng unique_scope seen_row_sets pool anchors n
        (List.range (max 1 (pool.length - n + 1))) pc.2

/-- The row-building loop of one card try: rows are chosen top to bottom from
the still-unused prioritized candidates, the first row anchoring the rest
(`None if r_idx == 0 else matrix[0]`; the matrix is empty exactly at
`r_idx = 0`).  Returns the built rows and the flattened used numbers. -/
def build_rows (rng : RngOps) (unique_scope : List String) (seen_row_sets : List (List Nat))
    (master : List Nat) (n : Nat) :
    Nat → List (List Nat) → List Nat → Nat → Option (List (List Nat) × List Nat) × Nat
  | 0, matrix, used, c => (some (matrix, used), c)
  | fuel + 1, matrix, used, c =>
    let pool := master.filter fun x => x ∉ used
    let anchors : Option (List Nat) := match matrix with | [] => none | r0 :: _ => some r0
    let rc := choose_row rng unique_scope seen_row_sets pool anchors n c
    match rc.1 with
    | none => (none, rc.2)
    | some row =>
      build_rows rng unique_scope seen_row_sets master n fuel
        (matrix ++ [row]) (used ++ row) rc.2

/-- Permutations in the emission order of `itertools.permutations`: for a
duplicate-free input this is lexicographic order, each element in input order
heading the permutations of the rest.  The fuel is the input length. -/
def permsAux : Nat → List Nat → List (List Nat)
  | 0, _ => [[]]
  | fuel + 1, l => l.flatMap fun x => (permsAux fuel (l.erase x)).map fun p => x :: p

/-- `list(itertools.permutations(range(n)))` — all index permutations, in
emission order. -/
def permsLex (l : List Nat) : List (List Nat) := permsAux l.length l

/-- `itertools.product` over a list of choice lists, in emission order (the
rightmost factor varies fastest). -/
def productL : List (List (List Nat)) → List (List (List Nat))
  | [] => [[]]
  | xs :: rest => xs.flatMap fun x => (productL rest).map fun combo => x :: combo

/-- The per-combination column check of the column-adjustment search in
`build_cards`: for every column `j`, the sorted tuple of the anchor value and
the permuted value of each later row must be absent from the column-set
registry. -/
def cols_ok (seen_col_sets : List (List Nat)) (anchors : List Nat)
    (bases : List (List Nat)) (combo : List (List Nat)) (n : Nat) : Bool :=
  (List.range n).all fun j =>
    let col_vals := anchors.getD j 0 ::
      (bases.zip combo).map fun bp => bp.1.getD (bp.2.getD j 0) 0
    decide (sortNat col_vals ∉ seen_col_sets)

/-- Apply the chosen index permutation of each later row:
`matrix[r_idx] = [base[perm[j]] for j in range(n)]`. -/
def apply_perms (bases : List (List Nat)) (combo : List (List Nat)) (n : Nat) :
    List (List Nat) :=
  (bases.zip combo).map fun bp => (List.range n).map fun j => bp.1.getD (bp.2.getD j 0) 0

/-- The column-adjustment step of `build_cards` (run when `m ≥ 2` and
`col_sets` is in scope): row `0` is fixed; each later row offers its first 120
index permutations; the first combination in product order whose every
column-signature avoids the registry is applied.  `None` means the card try
fails. -/
def col_adjust (seen_col_sets : List (List Nat)) (n : Nat) (matrix : List (List Nat)) :
    Option (List (List Nat)) :=
  match matrix with
  | [] => none
  | anchors :: rest =>
    let perms := (permsLex (List.range n)).take 120
    let combos := productL (rest.map fun _ => perms)
    match combos.find? (fun combo => cols_ok seen_col_sets anchors rest combo n) with
    | none => none
    | some combo => some (anchors :: apply_perms rest combo n)

/-- The run state owned by one attempt: the remaining-budget map and the
row-set, column-set and card-hash registries (Python sets, embedded as lists
with membership as the set test). -/
structure AState where
  rem : Nat → Int
  seen_row_sets : List (List Nat)
  seen_col_sets : List (List Nat)
  seen_card_hashes : List Card

/-- One try of the per-card restart loop in `build_cards` (the body of
`for card_try in range(200)`): build the rows, optionally adjust columns,
then run the global uniqueness checks and the unconditional hash check, and
commit on success — decrement the budget of every number in `used_in_card`
(a set: each distinct placed number once), merge the signatures of enabled
scopes into the registries, record the hash.  A failed try returns `none`,
leaving the caller's state exactly as snapshotted. -/
def card_try (rng : RngOps) (unique_scope : List String) (m n : Nat)
    (master : List Nat) (st : AState) (c : Nat) : Option (Card × AState) × Nat :=
  let brc := build_rows rng unique_scope st.seen_row_sets master n m [] [] c
  match brc.1 with
  | none => (none, brc.2)
  | some mu =>
    let adjusted : Option (List (List Nat)) :=
      if 2 ≤ m ∧ "col_sets" ∈ unique_scope then col_adjust st.seen_col_sets n mu.1
      else some mu.1
    match adjusted with
    | none => (none, brc.2)
    | some matrix =>
      let card_rows := row_sets_of_card matrix
      let card_cols := col_sets_of_card matrix
      if "row_sets" ∈ unique_scope ∧ card_rows.any (fun rs => rs ∈ st.seen_row_sets) then
        (none, brc.2)
      else if "col_sets" ∈ unique_scope ∧ card_cols.any (fun cs => cs ∈ st.seen_col_sets) then
        (none, brc.2)
      else if matrix_hash matrix ∈ st.seen_card_hashes then (none, brc.2)
      else
        let used := mu.2
        let st' : AState :=
          { rem := fun y => if y ∈ used then st.rem y - 1 else st.rem y
            seen_row_sets :=
              if "row_sets" ∈ unique_scope then st.seen_row_sets ++ card_rows
              else st.seen_row_sets
            seen_col_sets :=
              if "col_sets" ∈ unique_scope then st.seen_col_sets ++ card_cols
              else st.seen_col_sets
            seen_card_hashes := st.seen_card_hashes ++ [matrix_hash matrix] }
        (some (matrix, st'), brc.2)

/-- The per-card restart loop `for card_try in range(200)`: every try starts
from the same snapshot state `st` (the source restores `remaining` from
`snapshot_remaining` after a failed try; registries and the card list are
only touched by a successful commit). -/
def card_tries (rng : RngOps) (unique_scope : List String) (m n : Nat)
    (master : List Nat) (st : AState) : Nat → Nat → Option (Card × AState) × Nat
  | 0, c => (none, c)
  | fuel + 1, c =>
    let tc := card_try rng unique_scope m n master st c
    match tc.1 with
    | some out => (some out, tc.2)
    | none => card_tries rng unique_scope m n master st fuel tc.2

/-- The row slicing of the fast path: `row = chosen[k : k+n]`, `k` advancing
by `n`, for `m` rows. -/
def splitRows : Nat → Nat → List Nat → List (List Nat)
  | 0, _, _ => []
  | m + 1, n, chosen => chosen.take n :: splitRows m n (chosen.drop n)

/-- The prioritized candidate ordering of `build_cards`: shuffle to break ties
randomly, then sort by descending remaining budget
(`key=lambda x: (-remaining[x], rng.random())`; a stable sort of an arbitrary
permutation realizes exactly the orderings of a stable sort under random tie
keys). -/
def sort_candidates (rem : Nat → Int) (shuffled : List Nat) : List Nat :=
  shuffled.insertionSort fun a b => rem b ≤ rem a

/-- One `for _t in range(T)` iteration of `build_cards`: collect the numbers
with remaining budget, fail the attempt if fewer than `m*n` remain, order
them by priority, then either greedily fill (empty `unique_scope`: take the
first `m*n`, shuffle, slice into rows, reject a row with an internal
duplicate, and decrement the budget of each chosen number — with no registry
or hash bookkeeping) or run the 200-try construction loop. -/
def build_one_card (rng : RngOps) (unique_scope : List String) (R m n : Nat)
    (st : AState) (c : Nat) : Option (Card × AState) × Nat :=
  let need := m * n
  let numbers := List.range' 1 R
  let candidates := numbers.filter fun x => 0 < st.rem x
  if candidates.length < need then (none, c)
  else
    let shuffled := rng.shuffle c candidates
    let master := sort_candidates st.rem shuffled
    if unique_scope = [] then
      let chosen := master.take need
      let chosen2 := rng.shuffle (c + 1) chosen
      let matrix := splitRows m n chosen2
      if matrix.any (fun row => row.dedup.length ≠ row.length) then (none, c + 2)
      else
        let st' : AState :=
          { st with rem := chosen2.foldl (fun f x => fun y => if y = x then f y - 1 else f y) st.rem }
        (some (matrix, st'), c + 2)
    else card_tries rng unique_scope m n master st 200 (c + 1)

/-- The `for _t in range(T)` loop of one attempt: cards are built
sequentially; any single-card failure aborts the whole attempt. -/
def build_T_cards (rng : RngOps) (unique_scope : List String) (R m n : Nat) :
    Nat → List Card → AState → Nat → Option (List Card × AState) × Nat
  | 0, cards, st, c => (some (cards, st), c)
  | fuel + 1, cards, st, c =>
    let oc := build_one_card rng unique_scope R m n st c
    match oc.1 with
    | none => (none, oc.2)
    | some cs =>
      build_T_cards rng unique_scope R m n fuel (cards ++ [cs.1]) (cs.2) oc.2

/-- `sum(remaining.values())` — the budget map has exactly the keys `1..R`. -/
def sum_remaining (R : Nat) (rem : Nat → Int) : Int :=
  ((List.range' 1 R).map rem).sum

/-- The `for attempt in range(max_attempts)` loop of `build_cards`: each
attempt starts from a fresh state (budget map reset to the targets, empty
registries, empty card list) and a freshly derived random stream — embedded
as the continuation of the abstract stream, which subsumes every derived
reseeding; an attempt's result is returned only when all `T` cards were built
and the budget map sums to zero. -/
def attempts_loop (rng : RngOps) (unique_scope : List String) (R T m n : Nat)
    (target : Nat → Int) : Nat → Nat → Except String (List Card)
  | 0, _ => .error "Heuristic MVP failed to construct within attempts"
  | fuel + 1, c =>
    let st0 : AState := ⟨target, [], [], []⟩
    let bc := build_T_cards rng unique_scope R m n T [] st0 c
    match bc.1 with
    | some cs =>
      if sum_remaining R cs.2.rem = 0 then .ok cs.1
      else attempts_loop rng unique_scope R T m n target fuel bc.2
    | none => attempts_loop rng unique_scope R T m n target fuel bc.2

/-- `build_cards` from `builder/heuristic.py`.  The `rng_engine`/`seed`
parameters select the abstract stream `rng`; `sorted(set(unique_scope or []))`
only reorders and deduplicates the scope list, which no downstream membership
or emptiness test can distinguish, so the scope is threaded as given. -/
def build_cards (rng : RngOps) (R T m n : Nat) (uniformity : String)
    (unique_scope : List String) (max_attempts : Nat) : Except String (List Card) :=
  if R < m * n then .error "R must be >= m*n to avoid duplicates within a card"
  else
    match build_global_frequencies R T m n uniformity with
    | .error e => .error e
    | .ok target => attempts_loop rng unique_scope R T m n target max_attempts 0

theorem sortNat_perm (l : List Nat) : List.Perm (sortNat l) l :=
  List.perm_insertionSort _ l

theorem nodup_iff_dedup_length (l : List Nat) : l.Nodup ↔ l.dedup.length = l.length := by
  constructor
  · intro h
    rw [List.dedup_eq_self.mpr h]
  · intro h
    have hsub : l.dedup.Sublist l := List.dedup_sublist l
    have : l.dedup = l := List.Sublist.eq_of_length hsub h
    rw [← this]
    exact List.nodup_dedup l

theorem order_row_loop_perm (rng : RngOps) (row : List Nat) (anchors : Option (List Nat))
    (fuel : Nat) : ∀ c best best_score, List.Perm best row →
    List.Perm (order_row_loop rng row anchors fuel c best best_score).1 row := by
  induction fuel with
  | zero => intro c best bs h; simpa [order_row_loop] using h
  | succ fuel ih =>
    intro c best bs h
    simp only [order_row_loop]
    split
    · split
      · exact rng.shuffle_perm c row
      · exact ih _ _ _ (rng.shuffle_perm c row)
    · exact ih _ _ _ h

theorem order_row_perm (rng : RngOps) (row : List Nat) (anchors : Option (List Nat))
    (c : Nat) : List.Perm (order_row_min_consecutive rng row anchors c).1 row :=
  order_row_loop_perm rng row anchors 50 (c + 1) _ _ (rng.shuffle_perm c row)

/-- What a successfully chosen row satisfies: full length, no internal
duplicates, and every entry drawn from the given pool. -/
def RowOK (n : Nat) (pool row : List Nat) : Prop :=
  row.length = n ∧ row.Nodup ∧ ∀ x ∈ row, x ∈ pool

theorem rowOK_of_perm {n : Nat} {pool row row' : List Nat}
    (hp : List.Perm row' row) (h : RowOK n pool row) : RowOK n pool row' := by
  obtain ⟨hl, hn, hm⟩ := h
  exact ⟨hp.length_eq.trans hl, hp.nodup_iff.mpr hn, fun x hx => hm x (hp.mem_iff.mp hx)⟩



theorem sample_loop_spec (rng : RngOps) (us : List String) (seen : List (List Nat))
    (top : List Nat) (anchors : Option (List Nat)) (n : Nat) (hn : n ≤ top.length)
    (fuel : Nat) : ∀ c picked best_score,
    (∀ row, picked = some row → RowOK n top row) →
    ∀ row, (sample_loop rng us seen top anchors n fuel c picked best_score).1 = some row →
    RowOK n top row := by
  induction fuel with
  | zero =>
    intro c picked bs hp row h
    exact hp row (by simpa [sample_loop] using h)
  | succ fuel ih =>
    intro c picked bs hp row h
    simp only [sample_loop] at h
    have hcand : (rng.sample c top n).length = n := rng.sample_len c top n hn
    by_cases hdup : (rng.sample c top n).dedup.length ≠ n
    · rw [if_pos hdup] at h
      exact ih _ _ _ hp row h
    · rw [if_neg hdup] at h
      have hok2 : RowOK n top
          (order_row_min_consecutive rng (rng.sample c top n) anchors (c + 1)).1 := by
        refine rowOK_of_perm (order_row_perm rng _ anchors (c + 1)) ⟨hcand, ?_, ?_⟩
        · rw [nodup_iff_dedup_length, hcand]
          omega
        · exact fun x hx => rng.sample_mem c top n x hx
      split_ifs at h
      · exact ih _ _ _ hp row h
      · cases h
        exact hok2
      · exact ih _ _ _ (fun r hr => by cases hr; exact hok2) row h
      · exact ih _ _ _ hp row h

theorem slice_loop_spec (rng : RngOps) (us : List String) (seen : List (List Nat))
    (pool : List Nat) (anchors : Option (List Nat)) (n : Nat) :
    ∀ idxs c row, (slice_loop rng us seen pool anchors n idxs c).1 = some row →
    RowOK n pool row := by
  intro idxs
  induction idxs with
  | nil => intro c row h; simp [slice_loop] at h
  | cons i rest ih =>
    intro c row h
    simp only [slice_loop] at h
    by_cases hdup : ((pool.drop i).take n).dedup.length ≠ n
    · rw [if_pos hdup] at h
      exact ih _ row h
    · rw [if_neg hdup] at h
      have hlen : ((pool.drop i).take n).length = n := by
        have h2 : ((pool.drop i).take n).dedup.Sublist ((pool.drop i).take n) :=
          List.dedup_sublist _
        have h3 : ((pool.drop i).take n).length ≤ n := by
          simp [List.length_take_le n (pool.drop i)]
        have h4 := h2.length_le
        omega
      have hok : RowOK n pool ((pool.drop i).take n) := by
        refine ⟨hlen, ?_, fun x hx => List.drop_subset i pool (List.take_subset n _ hx)⟩
        rw [nodup_iff_dedup_length, hlen]
        omega
      split_ifs at h
      · exact ih _ row h
      · cases h
        exact rowOK_of_perm (order_row_perm rng _ anchors c) hok


theorem choose_row_spec (rng : RngOps) (us : List String) (seen : List (List Nat))
    (pool : List Nat) (anchors : Option (List Nat)) (n c : Nat) :
    ∀ row, (choose_row rng us seen pool anchors n c).1 = some row → RowOK n pool row := by
  intro row h
  rw [choose_row] at h
  by_cases hlt : pool.length < n
  · rw [if_pos hlt] at h
    simp at h
  · rw [if_neg hlt] at h
    simp only at h
    have htop : n ≤ (pool.take (min pool.length (max (2 * n) 50))).length := by
      simp only [List.length_take]
      omega
    split at h
    · rename_i row2 heq
      have hrr : row2 = row := by simpa using h
      subst hrr
      have hs := sample_loop_spec rng us seen _ anchors n htop 200 c none (10 ^ 9)
        (fun r hr => by cases hr) _ heq
      exact ⟨hs.1, hs.2.1, fun x hx => List.take_subset _ pool (hs.2.2 x hx)⟩
    · exact slice_loop_spec rng us seen pool anchors n _ _ row h

/-- The accumulator invariant of the row-building loop: the used list is the
flattening of the rows built so far, rows are full and duplicate-free, and
everything comes from the prioritized candidate list. -/
def RowsAcc (n : Nat) (master : List Nat) (matrix : List (List Nat)) (used : List Nat) : Prop :=
  used = matrix.flatten ∧ (∀ row ∈ matrix, row.length = n) ∧ matrix.flatten.Nodup ∧
    ∀ x ∈ matrix.flatten, x ∈ master

theorem build_rows_spec (rng : RngOps) (us : List String) (seenR : List (List Nat))
    (master : List Nat) (n : Nat) : ∀ fuel matrix used c,
    RowsAcc n master matrix used →
    ∀ out, (build_rows rng us seenR master n fuel matrix used c).1 = some out →
    RowsAcc n master out.1 out.2 ∧ out.1.length = matrix.length + fuel := by
  intro fuel
  induction fuel with
  | zero =>
    intro matrix used c hacc out h
    simp only [build_rows] at h
    cases h
    exact ⟨hacc, rfl⟩
  | succ fuel ih =>
    intro matrix used c hacc out h
    simp only [build_rows] at h
    split at h
    · exact Option.noConfusion h
    · rename_i row heq
      obtain ⟨hused, hrows, hnd, hmem⟩ := hacc
      have hrok := choose_row_spec _ _ _ _ _ _ _ row heq
      obtain ⟨hrl, hrnd, hrmem⟩ := hrok
      have hrow_master : ∀ x ∈ row, x ∈ master := fun x hx =>
        (List.mem_filter.mp (hrmem x hx)).1
      have hrow_out : ∀ x ∈ row, x ∉ matrix.flatten := by
        intro x hx
        have := (List.mem_filter.mp (hrmem x hx)).2
        simp only [decide_eq_true_eq, hused] at this
        simpa using this
      have hacc2 : RowsAcc n master (matrix ++ [row]) (used ++ row) := by
        refine ⟨?_, ?_, ?_, ?_⟩
        · rw [hused, List.flatten_append]
          simp
        · intro r hr
          rcases List.mem_append.mp hr with hr | hr
          · exact hrows r hr
          · simpa using (List.mem_singleton.mp hr) ▸ hrl
        · rw [List.flatten_append]
          simp only [List.flatten_cons, List.flatten_nil, List.append_nil]
          exact List.Nodup.append hnd hrnd fun x hx hx2 => hrow_out x hx2 hx
        · intro x hx
          rw [List.flatten_append] at hx
          simp only [List.flatten_cons, List.flatten_nil, List.append_nil] at hx
          rcases List.mem_append.mp hx with hx | hx
          · exact hmem x hx
          · exact hrow_master x hx
      have := ih (matrix ++ [row]) (used ++ row) _ hacc2 out h
      refine ⟨this.1, ?_⟩
      rw [this.2]
      simp only [List.length_append, List.length_singleton]
      omega

theorem permsAux_perm : ∀ fuel (l : List Nat) p, p ∈ permsAux fuel l → fuel = l.length →
    List.Perm p l := by
  intro fuel
  induction fuel with
  | zero =>
    intro l p hp hl
    have : l = [] := List.length_eq_zero.mp hl.symm
    subst this
    simp [permsAux] at hp
    simp [hp]
  | succ fuel ih =>
    intro l p hp hl
    simp only [permsAux, List.mem_flatMap, List.mem_map] at hp
    obtain ⟨x, hx, q, hq, rfl⟩ := hp
    have hlen : (l.erase x).length = fuel := by
      rw [List.length_erase_of_mem hx]
      omega
    have hqperm := ih (l.erase x) q hq hlen.symm
    exact (List.Perm.cons x hqperm).trans (List.perm_cons_erase hx).symm

theorem permsLex_perm (l p : List Nat) (hp : p ∈ permsLex l) : List.Perm p l :=
  permsAux_perm l.length l p hp rfl

theorem productL_spec : ∀ (ls : List (List (List Nat))) combo, combo ∈ productL ls →
    List.Forall₂ (fun c xs => c ∈ xs) combo ls := by
  intro ls
  induction ls with
  | nil =>
    intro combo h
    simp only [productL, List.mem_singleton] at h
    simp [h]
  | cons xs rest ih =>
    intro combo h
    simp only [productL, List.mem_flatMap, List.mem_map] at h
    obtain ⟨x, hx, c, hc, rfl⟩ := h
    exact List.Forall₂.cons hx (ih c hc)

theorem map_getD_range (l : List Nat) (d : Nat) :
    (List.range l.length).map (fun j => l.getD j d) = l := by
  induction l with
  | nil => simp
  | cons a t ih =>
    rw [List.length_cons, List.range_succ_eq_map]
    simp only [List.map_cons, List.map_map, List.getD_cons_zero, Function.comp_def,
      List.getD_cons_succ]
    rw [ih]

theorem perm_apply_one (base perm : List Nat) (n : Nat) (hb : base.length = n)
    (hp : List.Perm perm (List.range n)) :
    List.Perm ((List.range n).map fun j => base.getD (perm.getD j 0) 0) base := by
  have hlen : perm.length = n := hp.length_eq.trans (List.length_range n)
  have h1 : (List.range n).map (fun j => base.getD (perm.getD j 0) 0)
      = perm.map fun p => base.getD p 0 := by
    conv_rhs => rw [show perm = (List.range perm.length).map fun j => perm.getD j 0 from
      (map_getD_range perm 0).symm]
    rw [List.map_map, hlen]
    rfl
  rw [h1]
  have h2 : List.Perm (perm.map fun p => base.getD p 0)
      ((List.range n).map fun p => base.getD p 0) := hp.map _
  have h3 : (List.range n).map (fun p => base.getD p 0) = base := by
    rw [← hb]
    exact map_getD_range base 0
  rw [h3] at h2
  exact h2

theorem apply_perms_forall2 (n : Nat) : ∀ (bases combo : List (List Nat)),
    (∀ b ∈ bases, b.length = n) →
    List.Forall₂ (fun c xs => c ∈ xs) combo (bases.map fun _ => (permsLex (List.range n)).take 120) →
    List.Forall₂ (fun r b => List.Perm r b) (apply_perms bases combo n) bases := by
  intro bases
  induction bases with
  | nil =>
    intro combo _ hc
    simp only [List.map_nil] at hc
    cases hc
    simp [apply_perms]
  | cons b bs ih =>
    intro combo hb hc
    simp only [List.map_cons] at hc
    cases hc with
    | cons hmem htail =>
      rename_i c cs
      simp only [apply_perms, List.zip_cons_cons, List.map_cons]
      refine List.Forall₂.cons ?_ (ih cs (fun x hx => hb x (by simp [hx])) htail)
      have hcperm : List.Perm c (List.range n) :=
        permsLex_perm _ c (List.mem_of_mem_take hmem)
      exact perm_apply_one b c n (hb b (by simp)) hcperm

theorem col_adjust_spec (seenC : List (List Nat)) (n : Nat)
    (matrix matrix2 : List (List Nat)) (hrows : ∀ row ∈ matrix, row.length = n)
    (h : col_adjust seenC n matrix = some matrix2) :
    List.Forall₂ (fun r b => List.Perm r b) matrix2 matrix := by
  cases matrix with
  | nil => simp [col_adjust] at h
  | cons anchors rest =>
    simp only [col_adjust] at h
    split at h
    · exact absurd h (by simp)
    · rename_i combo hfind
      cases h
      have hcombo : combo ∈ productL (rest.map fun _ => (permsLex (List.range n)).take 120) :=
        List.mem_of_find?_eq_some hfind
      refine List.Forall₂.cons (List.Perm.refl anchors) ?_
      exact apply_perms_forall2 n rest combo (fun b hb => hrows b (by simp [hb]))
        (productL_spec _ combo hcombo)

theorem perm_of_sortNat_eq {a b : List Nat} (h : sortNat a = sortNat b) : List.Perm a b := by
  have h1 := sortNat_perm a
  rw [h] at h1
  exact h1.symm.trans (sortNat_perm b)

theorem forall2_mem_left {R : List Nat → List Nat → Prop} :
    ∀ {l1 l2 : List (List Nat)}, List.Forall₂ R l1 l2 → ∀ a ∈ l1, ∃ b ∈ l2, R a b := by
  intro l1
  induction l1 with
  | nil => intro l2 _ a ha; simp at ha
  | cons x xs ih =>
    intro l2 h a ha
    cases h with
    | cons hxy htail =>
      rename_i y ys
      rcases List.mem_cons.mp ha with rfl | ha
      · exact ⟨y, by simp, hxy⟩
      · obtain ⟨b, hb, hr⟩ := ih htail a ha
        exact ⟨b, by simp [hb], hr⟩

theorem getD_mem_of_lt (l : List Nat) (j d : Nat) (h : j < l.length) : l.getD j d ∈ l := by
  rw [List.getD_eq_getElem l d h]
  exact List.getElem_mem h

theorem getD_inj_of_nodup (l : List Nat) (hnd : l.Nodup) (j1 j2 d : Nat)
    (h1 : j1 < l.length) (h2 : j2 < l.length) (he : l.getD j1 d = l.getD j2 d) :
    j1 = j2 := by
  rw [List.getD_eq_getElem l d h1, List.getD_eq_getElem l d h2] at he
  have hf : (⟨j1, h1⟩ : Fin l.length) = ⟨j2, h2⟩ :=
    (List.Nodup.get_inj_iff hnd).mp (by simpa [List.get_eq_getElem] using he)
  exact congrArg Fin.val hf

/-- Pairwise-distinct sorted signatures of a list of nonempty, globally
duplicate-free lists: two different rows of such a family can share no
element, hence cannot have the same sorted tuple. -/
theorem sigs_nodup (L : List (List Nat)) (hflat : L.flatten.Nodup)
    (hne : ∀ l ∈ L, l ≠ []) : (L.map sortNat).Nodup := by
  induction L with
  | nil => simp
  | cons r rest ih =>
    rw [List.flatten_cons] at hflat
    obtain ⟨hr, hrest, hdisj⟩ := List.nodup_append.mp hflat
    simp only [List.map_cons, List.nodup_cons]
    refine ⟨?_, ih hrest fun l hl => hne l (by simp [hl])⟩
    intro hmem
    obtain ⟨r2, hr2, heq⟩ := List.mem_map.mp hmem
    have hperm : List.Perm r r2 := perm_of_sortNat_eq heq.symm
    obtain ⟨x, hx⟩ := List.exists_mem_of_ne_nil r (hne r (by simp))
    exact hdisj hx (List.mem_flatten.mpr ⟨r2, hr2, hperm.mem_iff.mp hx⟩)

/-- Pairwise-distinct column signatures of a matrix whose rows all have
length `n` and whose cells are globally duplicate-free: two different columns
collect cells from disjoint positions. -/
theorem col_sigs_nodup (matrix : Card) (n : Nat)
    (hrows : ∀ row ∈ matrix, row.length = n) (hflat : matrix.flatten.Nodup) :
    (col_sets_of_card matrix).Nodup := by
  cases matrix with
  | nil => simp [col_sets_of_card]
  | cons r0 rest =>
    have hr0n : r0.length = n := hrows r0 (by simp)
    obtain ⟨hallnd, hpw⟩ := List.nodup_flatten.mp hflat
    simp only [col_sets_of_card]
    rw [hr0n]
    refine List.Nodup.map_on ?_ (List.nodup_range n)
    intro j1 hj1 j2 hj2 heq
    rw [List.mem_range] at hj1 hj2
    by_contra hne
    have hperm : List.Perm ((r0 :: rest).map fun row => row.getD j1 0)
        ((r0 :: rest).map fun row => row.getD j2 0) := perm_of_sortNat_eq heq
    have hv : r0.getD j1 0 ∈ (r0 :: rest).map fun row => row.getD j1 0 :=
      List.mem_map_of_mem _ (by simp)
    obtain ⟨row2, hrow2, hveq⟩ := List.mem_map.mp (hperm.mem_iff.mp hv)
    have hrow2n : row2.length = n := hrows row2 hrow2
    by_cases hrr : row2 = r0
    · subst hrr
      exact hne (getD_inj_of_nodup row2 (hallnd row2 hrow2) j1 j2 0
        (by omega) (by omega) hveq.symm)
    · have hdisj : r0.Disjoint row2 :=
        List.Pairwise.forall (fun a b h => h.symm) hpw (by simp) hrow2 fun h => hrr h.symm
      have hv1 : r0.getD j1 0 ∈ r0 := getD_mem_of_lt r0 j1 0 (by omega)
      have hv2 : r0.getD j1 0 ∈ row2 := by
        rw [← hveq]
        exact getD_mem_of_lt row2 j2 0 (by omega)
      exact hdisj hv1 hv2

theorem forall2_perm_refl (l : List (List Nat)) :
    List.Forall₂ (fun a b => List.Perm a b) l l :=
  List.forall₂_same.mpr fun a _ => List.Perm.refl a

/-- Everything a successful card try guarantees: the card has `m` full rows
without global duplicates, drawn from the prioritized candidates; the new
state decrements the budget of exactly the card's cells and extends the
registries by exactly the card's signatures and hash; and the card passed
every uniqueness check against the snapshot state. -/
theorem card_try_spec (rng : RngOps) (us : List String) (m n : Nat) (master : List Nat)
    (st : AState) (c : Nat) : ∀ out c',
    card_try rng us m n master st c = (some out, c') →
    (out.1.length = m ∧ (∀ row ∈ out.1, row.length = n) ∧ out.1.flatten.Nodup ∧
      ∀ x ∈ out.1.flatten, x ∈ master) ∧
    (∀ y, out.2.rem y = if y ∈ out.1.flatten then st.rem y - 1 else st.rem y) ∧
    out.2.seen_row_sets =
      (if "row_sets" ∈ us then st.seen_row_sets ++ row_sets_of_card out.1
       else st.seen_row_sets) ∧
    out.2.seen_col_sets =
      (if "col_sets" ∈ us then st.seen_col_sets ++ col_sets_of_card out.1
       else st.seen_col_sets) ∧
    out.2.seen_card_hashes = st.seen_card_hashes ++ [out.1] ∧
    ("row_sets" ∈ us → ∀ s ∈ row_sets_of_card out.1, s ∉ st.seen_row_sets) ∧
    ("col_sets" ∈ us → ∀ s ∈ col_sets_of_card out.1, s ∉ st.seen_col_sets) ∧
    out.1 ∉ st.seen_card_hashes := by
  intro out c' h
  simp only [card_try] at h
  split at h
  · simp at h
  · rename_i mu hmu
    have hbr := build_rows_spec rng us st.seen_row_sets master n m [] [] c
      ⟨rfl, by simp, by simp, by simp⟩ mu hmu
    obtain ⟨⟨hused, hrows, hnd, hmem⟩, hlen⟩ := hbr
    simp only [List.length_nil, Nat.zero_add] at hlen
    split at h
    · simp at h
    · rename_i matrix hadj
      have hf2 : List.Forall₂ (fun a b => List.Perm a b) matrix mu.1 := by
        by_cases hcs : 2 ≤ m ∧ "col_sets" ∈ us
        · rw [if_pos hcs] at hadj
          exact col_adjust_spec st.seen_col_sets n mu.1 matrix hrows hadj
        · rw [if_neg hcs] at hadj
          cases hadj
          exact forall2_perm_refl _
      have hjoin : List.Perm matrix.flatten mu.1.flatten := List.Perm.flatten_congr hf2
      have hmlen : matrix.length = m := by
        rw [List.Forall₂.length_eq hf2, hlen]
      have hmrows : ∀ row ∈ matrix, row.length = n := by
        intro row hr
        obtain ⟨b, hb, hperm⟩ := forall2_mem_left hf2 row hr
        rw [hperm.length_eq]
        exact hrows b hb
      have hmnd : matrix.flatten.Nodup := hjoin.nodup_iff.mpr hnd
      have hmmem : ∀ x ∈ matrix.flatten, x ∈ master := fun x hx =>
        hmem x (hjoin.mem_iff.mp hx)
      have husedm : ∀ y, y ∈ mu.2 ↔ y ∈ matrix.flatten := by
        intro y
        rw [hused]
        exact hjoin.mem_iff.symm
      by_cases hq1 : "row_sets" ∈ us ∧
          ((row_sets_of_card matrix).any fun rs => decide (rs ∈ st.seen_row_sets)) = true
      · rw [if_pos hq1] at h
        simp at h
      · rw [if_neg hq1] at h
        by_cases hq2 : "col_sets" ∈ us ∧
            ((col_sets_of_card matrix).any fun cs => decide (cs ∈ st.seen_col_sets)) = true
        · rw [if_pos hq2] at h
          simp at h
        · rw [if_neg hq2] at h
          by_cases hq3 : matrix_hash matrix ∈ st.seen_card_hashes
          · rw [if_pos hq3] at h
            simp at h
          · rw [if_neg hq3] at h
            rw [Prod.mk.injEq] at h
            obtain ⟨h1, hc⟩ := h
            injection h1 with h1
            subst h1
            simp only [matrix_hash] at hq3
            refine ⟨⟨hmlen, hmrows, hmnd, hmmem⟩, ?_, rfl, rfl, rfl, ?_, ?_, hq3⟩
            · intro y
              exact if_congr (husedm y) rfl rfl
            · intro hin s hs hsm
              refine hq1 ⟨hin, ?_⟩
              simp only [List.any_eq_true, decide_eq_true_eq]
              exact ⟨s, hs, hsm⟩
            · intro hin s hs hsm
              refine hq2 ⟨hin, ?_⟩
              simp only [List.any_eq_true, decide_eq_true_eq]
              exact ⟨s, hs, hsm⟩

theorem card_tries_spec (rng : RngOps) (us : List String) (m n : Nat) (master : List Nat)
    (st : AState) : ∀ fuel c out c',
    card_tries rng us m n master st fuel c = (some out, c') →
    ∃ c0 c1, card_try rng us m n master st c0 = (some out, c1) := by
  intro fuel
  induction fuel with
  | zero => intro c out c' h; simp [card_tries] at h
  | succ fuel ih =>
    intro c out c' h
    simp only [card_tries] at h
    split at h
    · rename_i o hto
      rw [Prod.mk.injEq] at h
      obtain ⟨h1, _⟩ := h
      injection h1 with h1
      subst h1
      refine ⟨c, (card_try rng us m n master st c).2, ?_⟩
      rw [← hto]
    · exact ih _ out c' h

theorem splitRows_length (n : Nat) : ∀ m l, (splitRows m n l).length = m := by
  intro m
  induction m with
  | zero => intro l; simp [splitRows]
  | succ m ih => intro l; simp [splitRows, ih]

theorem splitRows_rows (n : Nat) : ∀ m l, l.length = m * n →
    ∀ row ∈ splitRows m n l, row.length = n := by
  intro m
  induction m with
  | zero => intro l _ row hr; simp [splitRows] at hr
  | succ m ih =>
    intro l hl row hr
    simp only [splitRows, List.mem_cons] at hr
    rcases hr with rfl | hr
    · simp only [List.length_take]
      have : n ≤ l.length := by
        rw [hl]
        exact Nat.le_add_left n (m * n) |>.trans (by rw [Nat.succ_mul])
      omega
    · refine ih (l.drop n) ?_ row hr
      simp only [List.length_drop, hl, Nat.succ_mul]
      omega

theorem splitRows_flatten (n : Nat) : ∀ m l, l.length = m * n →
    (splitRows m n l).flatten = l := by
  intro m
  induction m with
  | zero =>
    intro l hl
    have : l = [] := List.length_eq_zero.mp (by simpa using hl)
    simp [splitRows, this]
  | succ m ih =>
    intro l hl
    simp only [splitRows, List.flatten_cons]
    rw [ih (l.drop n) (by simp only [List.length_drop, hl, Nat.succ_mul]; omega)]
    exact List.take_append_drop n l

theorem foldl_dec : ∀ (l : List Nat) (f : Nat → Int), l.Nodup → ∀ y,
    (l.foldl (fun g x => fun z => if z = x then g z - 1 else g z) f) y
      = if y ∈ l then f y - 1 else f y := by
  intro l
  induction l with
  | nil => intro f _ y; simp
  | cons a t ih =>
    intro f hnd y
    obtain ⟨ha, ht⟩ := List.nodup_cons.mp hnd
    rw [List.foldl_cons, ih _ ht y]
    by_cases hyt : y ∈ t
    · have hya : y ≠ a := fun he => ha (he ▸ hyt)
      simp [hyt, hya, List.mem_cons]
    · by_cases hya : y = a
      · subst hya
        simp [hyt]
      · simp [hyt, hya, List.mem_cons]

theorem count_ite_of_nodup (l : List Nat) (h : l.Nodup) (y : Nat) :
    l.count y = if y ∈ l then 1 else 0 := by
  by_cases hy : y ∈ l
  · rw [if_pos hy]
    exact List.count_eq_one_of_mem h hy
  · rw [if_neg hy]
    exact List.count_eq_zero.mpr hy

/-- The multiset of every placed number across a card list, in placement
order. -/
def occ_list (cards : List Card) : List Nat := (cards.map List.flatten).flatten

theorem occ_list_append (cards : List Card) (card : Card) :
    occ_list (cards ++ [card]) = occ_list cards ++ card.flatten := by
  simp [occ_list]

/-- The state invariant of one run attempt, after `cards` have been accepted:
every accepted card is a full `m × n` matrix of distinct in-range cells; the
budget map is the target minus the placed occurrences and never negative;
when any uniqueness scope is active, accepted cards are pairwise distinct and
registered in the hash registry; and for each active scope the accepted
signatures are registered and pairwise distinct (row signatures need `n ≥ 1`:
rows of width `0` all share the empty signature). -/
def RunInv (R m n : Nat) (us : List String) (tf : Nat → Int)
    (cards : List Card) (st : AState) : Prop :=
  (∀ card ∈ cards, card.length = m ∧ (∀ row ∈ card, row.length = n) ∧
      card.flatten.Nodup ∧ ∀ v ∈ card.flatten, 1 ≤ v ∧ v ≤ R) ∧
  (∀ x, st.rem x = tf x - ((occ_list cards).count x : Int)) ∧
  (∀ x, 0 ≤ st.rem x) ∧
  (us ≠ [] → cards.Nodup ∧ ∀ card ∈ cards, card ∈ st.seen_card_hashes) ∧
  ("row_sets" ∈ us → (∀ s ∈ (cards.map row_sets_of_card).flatten, s ∈ st.seen_row_sets) ∧
      (1 ≤ n → ((cards.map row_sets_of_card).flatten).Nodup)) ∧
  ("col_sets" ∈ us → (∀ s ∈ (cards.map col_sets_of_card).flatten, s ∈ st.seen_col_sets) ∧
      ((cards.map col_sets_of_card).flatten).Nodup)

theorem range'_one_nodup (R : Nat) : (List.range' 1 R).Nodup := by
  rw [List.range'_eq_map_range]
  exact (List.nodup_range R).map fun a b h => by omega

theorem mem_range'_one {R x : Nat} (h : x ∈ List.range' 1 R) : 1 ≤ x ∧ x ≤ R := by
  have := List.mem_range'_1.mp h
  omega

/-- One accepted card preserves the run invariant: both the greedy fast path
(empty scope) and the 200-try construction path append one full card, pay for
exactly its cells, and (on the construction path) extend the registries
consistently. -/
theorem build_one_card_preserve (rng : RngOps) (us : List String) (R m n : Nat)
    (tf : Nat → Int) (cards : List Card) (st : AState) (c : Nat)
    (hInv : RunInv R m n us tf cards st) :
    ∀ out c', build_one_card rng us R m n st c = (some out, c') →
    RunInv R m n us tf (cards ++ [out.1]) out.2 := by
  intro out c' h
  obtain ⟨hcards, hrem, hpos, hhash, hrowreg, hcolreg⟩ := hInv
  simp only [build_one_card] at h
  set cands := (List.range' 1 R).filter (fun x => decide (0 < st.rem x)) with hcands
  have hcnd : cands.Nodup := (range'_one_nodup R).filter _
  have hcmem : ∀ x ∈ cands, (1 ≤ x ∧ x ≤ R) ∧ 0 < st.rem x := by
    intro x hx
    have hf := List.mem_filter.mp hx
    exact ⟨mem_range'_one hf.1, by simpa using hf.2⟩
  by_cases hg : cands.length < m * n
  · rw [if_pos hg] at h
    simp at h
  · rw [if_neg hg] at h
    have hshufp : List.Perm (rng.shuffle c cands) cands := rng.shuffle_perm c cands
    have hmp : List.Perm (sort_candidates st.rem (rng.shuffle c cands)) cands :=
      (List.perm_insertionSort _ _).trans hshufp
    set master := sort_candidates st.rem (rng.shuffle c cands) with hmaster
    have hmnd : master.Nodup := hmp.nodup_iff.mpr hcnd
    have hmmem : ∀ x ∈ master, (1 ≤ x ∧ x ≤ R) ∧ 0 < st.rem x := fun x hx =>
      hcmem x (hmp.mem_iff.mp hx)
    by_cases hsc : us = []
    · rw [if_pos hsc] at h
      set chosen2 := rng.shuffle (c + 1) (master.take (m * n)) with hch2
      have hclen : (master.take (m * n)).length = m * n := by
        simp only [List.length_take]
        have := hmp.length_eq
        omega
      have hc2p : List.Perm chosen2 (master.take (m * n)) := rng.shuffle_perm _ _
      have hc2len : chosen2.length = m * n := hc2p.length_eq.trans hclen
      have hc2nd : chosen2.Nodup :=
        hc2p.nodup_iff.mpr ((List.take_sublist (m * n) master).nodup hmnd)
      have hc2mem : ∀ x ∈ chosen2, (1 ≤ x ∧ x ≤ R) ∧ 0 < st.rem x := fun x hx =>
        hmmem x (List.take_subset _ _ (hc2p.mem_iff.mp hx))
      have hflat : (splitRows m n chosen2).flatten = chosen2 :=
        splitRows_flatten n m chosen2 hc2len
      split at h
      · simp at h
      · rw [Prod.mk.injEq] at h
        obtain ⟨h1, _⟩ := h
        injection h1 with h1
        subst h1
        clear_value chosen2 master cands
        refine ⟨?_, ?_, ?_, ?_, ?_, ?_⟩
        · intro card hc
          rcases List.mem_append.mp hc with hc | hc
          · exact hcards card hc
          · rw [List.mem_singleton] at hc
            subst hc
            refine ⟨splitRows_length n m chosen2, splitRows_rows n m chosen2 hc2len, ?_, ?_⟩
            · rw [hflat]
              exact hc2nd
            · rw [hflat]
              intro v hv
              exact (hc2mem v hv).1
        · intro x
          have hfd := foldl_dec chosen2 st.rem hc2nd x
          simp only at hfd ⊢
          rw [hfd, occ_list_append, List.count_append]
          clear hfd
          simp only [hflat]
          rw [count_ite_of_nodup chosen2 hc2nd x]
          have hr := hrem x
          by_cases hx : x ∈ chosen2
          · rw [if_pos hx]
            rw [if_pos hx]
            push_cast
            omega
          · rw [if_neg hx]
            rw [if_neg hx]
            push_cast
            omega
        · intro x
          have hfd := foldl_dec chosen2 st.rem hc2nd x
          simp only at hfd ⊢
          rw [hfd]
          clear hfd
          by_cases hx : x ∈ chosen2
          · rw [if_pos hx]
            have := (hc2mem x hx).2
            omega
          · rw [if_neg hx]
            exact hpos x
        · intro hne
          exact absurd hsc hne
        · intro hin
          rw [hsc] at hin
          simp at hin
        · intro hin
          rw [hsc] at hin
          simp at hin
    · rw [if_neg hsc] at h
      obtain ⟨c0, c1, hct⟩ := card_tries_spec rng us m n master st 200 (c + 1) out c' h
      have hspec := card_try_spec rng us m n master st c0 out c1 hct
      obtain ⟨⟨hol, hor, hond, homem⟩, horem, hsrs, hscs, hsh, hgrow, hgcol, hnm⟩ := hspec
      have homem2 : ∀ x ∈ out.1.flatten, (1 ≤ x ∧ x ≤ R) ∧ 0 < st.rem x := fun x hx =>
        hmmem x (homem x hx)
      refine ⟨?_, ?_, ?_, ?_, ?_, ?_⟩
      · intro card hc
        rcases List.mem_append.mp hc with hc | hc
        · exact hcards card hc
        · rw [List.mem_singleton] at hc
          subst hc
          exact ⟨hol, hor, hond, fun v hv => (homem2 v hv).1⟩
      · intro x
        rw [horem x, occ_list_append, List.count_append,
          count_ite_of_nodup out.1.flatten hond x]
        have hr := hrem x
        by_cases hx : x ∈ out.1.flatten
        · rw [if_pos hx]
          rw [if_pos hx]
          push_cast
          omega
        · rw [if_neg hx]
          rw [if_neg hx]
          push_cast
          omega
      · intro x
        rw [horem x]
        by_cases hx : x ∈ out.1.flatten
        · rw [if_pos hx]
          have := (homem2 x hx).2
          omega
        · rw [if_neg hx]
          exact hpos x
      · intro _
        have hold := hhash hsc
        refine ⟨?_, ?_⟩
        · rw [List.nodup_append]
          refine ⟨hold.1, by simp, ?_⟩
          rw [List.disjoint_singleton]
          intro hmem
          exact hnm (hold.2 _ hmem)
        · intro card hc
          rcases List.mem_append.mp hc with hc | hc
          · rw [hsh]
            exact List.mem_append_left _ (hold.2 card hc)
          · rw [List.mem_singleton] at hc
            subst hc
            rw [hsh]
            simp
      · intro hin
        have hreg := hrowreg hin
        have hsigs : ((cards ++ [out.1]).map row_sets_of_card).flatten
            = (cards.map row_sets_of_card).flatten ++ row_sets_of_card out.1 := by
          simp
        refine ⟨?_, ?_⟩
        · intro s hs
          rw [hsigs] at hs
          rw [hsrs, if_pos hin]
          rcases List.mem_append.mp hs with hs | hs
          · exact List.mem_append_left _ (hreg.1 s hs)
          · exact List.mem_append_right _ hs
        · intro hn
          rw [hsigs, List.nodup_append]
          refine ⟨hreg.2 hn, ?_, ?_⟩
          · have hne : ∀ l ∈ out.1, l ≠ [] := by
              intro l hl he
              have := hor l hl
              rw [he] at this
              simp at this
              omega
            simpa [row_sets_of_card] using sigs_nodup out.1 hond hne
          · intro s hso hsn
            exact hgrow hin s hsn (hreg.1 s hso)
      · intro hin
        have hreg := hcolreg hin
        have hsigs : ((cards ++ [out.1]).map col_sets_of_card).flatten
            = (cards.map col_sets_of_card).flatten ++ col_sets_of_card out.1 := by
          simp
        refine ⟨?_, ?_⟩
        · intro s hs
          rw [hsigs] at hs
          rw [hscs, if_pos hin]
          rcases List.mem_append.mp hs with hs | hs
          · exact List.mem_append_left _ (hreg.1 s hs)
          · exact List.mem_append_right _ hs
        · rw [hsigs, List.nodup_append]
          refine ⟨hreg.2, col_sigs_nodup out.1 n hor hond, ?_⟩
          intro s hso hsn
          exact hgcol hin s hsn (hreg.1 s hso)

theorem build_T_cards_spec (rng : RngOps) (us : List String) (R m n : Nat)
    (tf : Nat → Int) : ∀ fuel cards st c, RunInv R m n us tf cards st →
    ∀ out c', build_T_cards rng us R m n fuel cards st c = (some out, c') →
    RunInv R m n us tf out.1 out.2 ∧ out.1.length = cards.length + fuel := by
  intro fuel
  induction fuel with
  | zero =>
    intro cards st c hInv out c' h
    simp only [build_T_cards] at h
    rw [Prod.mk.injEq] at h
    obtain ⟨h1, _⟩ := h
    injection h1 with h1
    subst h1
    exact ⟨hInv, rfl⟩
  | succ fuel ih =>
    intro cards st c hInv out c' h
    simp only [build_T_cards] at h
    split at h
    · simp at h
    · rename_i cs hcs
      have hfull : build_one_card rng us R m n st c
          = (some cs, (build_one_card rng us R m n st c).2) := by
        rw [← hcs]
      have hpres := build_one_card_preserve rng us R m n tf cards st c hInv cs
        (build_one_card rng us R m n st c).2 hfull
      have := ih (cards ++ [cs.1]) cs.2 _ hpres out c' h
      refine ⟨this.1, ?_⟩
      rw [this.2]
      simp only [List.length_append, List.length_singleton]
      omega

theorem attempts_loop_spec (rng : RngOps) (us : List String) (R T m n : Nat)
    (tf : Nat → Int) (htf : ∀ x, 0 ≤ tf x) : ∀ fuel c cards,
    attempts_loop rng us R T m n tf fuel c = .ok cards →
    ∃ st, RunInv R m n us tf cards st ∧ cards.length = T ∧
      sum_remaining R st.rem = 0 := by
  have hInv0 : RunInv R m n us tf [] ⟨tf, [], [], []⟩ := by
    refine ⟨by simp, ?_, htf, fun _ => ⟨List.nodup_nil, by simp⟩,
      fun _ => ⟨by simp, fun _ => by simp [occ_list]⟩,
      fun _ => ⟨by simp, by simp [occ_list]⟩⟩
    intro x
    simp [occ_list]
  intro fuel
  induction fuel with
  | zero => intro c cards h; simp [attempts_loop] at h
  | succ fuel ih =>
    intro c cards h
    simp only [attempts_loop] at h
    split at h
    · rename_i cs hcs
      split at h
      · rename_i hsum
        injection h with h
        subst h
        have := build_T_cards_spec rng us R m n tf T [] ⟨tf, [], [], []⟩ c hInv0 cs _
          (by rw [← hcs])
        exact ⟨cs.2, this.1, by simpa using this.2, hsum⟩
      · exact ih _ cards h
    · exact ih _ cards h

theorem bgf_nonneg (R T m n : Nat) (mode : String) (tf : Nat → Int)
    (h : build_global_frequencies R T m n mode = .ok tf) : ∀ x, 0 ≤ tf x := by
  intro x
  simp only [build_global_frequencies] at h
  split at h
  · simp at h
  · split at h
    · injection h with h
      subst h
      dsimp only
      split
      · positivity
      · omega
    · split at h
      · injection h with h
        subst h
        dsimp only
        split
        · positivity
        · omega
      · simp at h

/-- The single success path of `build_cards`: a returned card list passed the
`R ≥ m*n` guard, came from a frequency plan, and is certified by the run
invariant with all `T` cards built and the budget summing to zero. -/
theorem build_cards_ok_spec (rng : RngOps) (R T m n : Nat) (uniformity : String)
    (us : List String) (ma : Nat) (cards : List Card)
    (h : build_cards rng R T m n uniformity us ma = .ok cards) :
    m * n ≤ R ∧ ∃ tf, build_global_frequencies R T m n uniformity = .ok tf ∧
      (∀ x, 0 ≤ tf x) ∧ ∃ st, RunInv R m n us tf cards st ∧ cards.length = T ∧
        sum_remaining R st.rem = 0 := by
  simp only [build_cards] at h
  split at h
  · simp at h
  · rename_i hge
    split at h
    · simp at h
    · rename_i tf htf
      have hnn := bgf_nonneg R T m n uniformity tf htf
      exact ⟨by omega, tf, htf, hnn,
        attempts_loop_spec rng us R T m n tf hnn ma 0 cards h⟩

theorem flatten_length_of_dims (card : Card) (m n : Nat) (hl : card.length = m)
    (hr : ∀ row ∈ card, row.length = n) : card.flatten.length = m * n := by
  rw [List.length_flatten]
  have hrep : card.map List.length = List.replicate m n :=
    List.eq_replicate_iff.mpr ⟨by simp [hl], by simpa using hr⟩
  rw [hrep, List.sum_replicate, smul_eq_mul]

theorem occ_list_length (cards : List Card) (m n : Nat)
    (h : ∀ card ∈ cards, card.flatten.length = m * n) :
    (occ_list cards).length = cards.length * (m * n) := by
  rw [occ_list, List.length_flatten, List.map_map]
  have hrep : cards.map (List.length ∘ List.flatten) = List.replicate cards.length (m * n) :=
    List.eq_replicate_iff.mpr ⟨by simp, by
      intro b hb
      obtain ⟨card, hc, rfl⟩ := List.mem_map.mp hb
      exact h card hc⟩
  rw [hrep, List.sum_replicate, smul_eq_mul]

theorem mem_occ_list {cards : List Card} {v : Nat} (h : v ∈ occ_list cards) :
    ∃ card ∈ cards, v ∈ card.flatten := by
  rw [occ_list, List.mem_flatten] at h
  obtain ⟨l, hl, hv⟩ := h
  obtain ⟨card, hc, rfl⟩ := List.mem_map.mp hl
  exact ⟨card, hc, hv⟩

theorem sum_zero_each : ∀ (l : List Int), (∀ x ∈ l, 0 ≤ x) → l.sum = 0 →
    ∀ x ∈ l, x = 0 := by
  intro l
  induction l with
  | nil => intro _ _ x hx; simp at hx
  | cons a t ih =>
    intro hpos hsum x hx
    have hts : 0 ≤ t.sum := List.sum_nonneg fun y hy => hpos y (by simp [hy])
    have ha : 0 ≤ a := hpos a (by simp)
    rw [List.sum_cons] at hsum
    rcases List.mem_cons.mp hx with rfl | hx
    · omega
    · exact ih (fun y hy => hpos y (by simp [hy])) (by omega) x hx

theorem indicator_sum {α : Type} [DecidableEq α] : ∀ (keys : List α), keys.Nodup → ∀ v ∈ keys,
    (keys.map fun k => if k = v then (1 : Nat) else 0).sum = 1 := by
  intro keys
  induction keys with
  | nil => intro _ v hv; simp at hv
  | cons a t ih =>
    intro hnd v hv
    obtain ⟨ha, ht⟩ := List.nodup_cons.mp hnd
    rcases List.mem_cons.mp hv with rfl | hv
    · simp only [List.map_cons, List.sum_cons, if_pos rfl]
      have hz : (t.map fun k => if k = v then (1 : Nat) else 0).sum = 0 := by
        rw [List.sum_eq_zero_iff]
        intro x hx
        obtain ⟨k, hk, rfl⟩ := List.mem_map.mp hx
        rw [if_neg]
        intro he
        exact ha (he ▸ hk)
      rw [hz]
      simp
    · have hav : a ≠ v := fun he => ha (he ▸ hv)
      simp only [List.map_cons, List.sum_cons, if_neg hav]
      rw [ih ht v hv]

theorem counts_sum (keys : List Nat) (hk : keys.Nodup) : ∀ (l : List Nat),
    (∀ v ∈ l, v ∈ keys) → (keys.map fun k => l.count k).sum = l.length := by
  intro l
  induction l with
  | nil => intro _; simp
  | cons v t ih =>
    intro hmem
    have h1 : (keys.map fun k => (v :: t).count k)
        = keys.map fun k => t.count k + if k = v then 1 else 0 := by
      apply List.map_congr_left
      intro k _
      rw [List.count_cons]
      exact congrArg (List.count k t + ·)
        (if_congr (by rw [beq_iff_eq]; exact eq_comm) rfl rfl)
    rw [h1, List.sum_map_add, ih (fun y hy => hmem y (by simp [hy])),
      indicator_sum keys hk v (hmem v (by simp))]
    simp

/-- A successful attempt placed every number exactly its planned count: the
budget sum is zero and no entry is negative, so every entry is zero. -/
theorem exhaustion_counts (R m n : Nat) (us : List String) (tf : Nat → Int)
    (cards : List Card) (st : AState) (hInv : RunInv R m n us tf cards st)
    (hsum : sum_remaining R st.rem = 0) :
    ∀ x, 1 ≤ x → x ≤ R → ((occ_list cards).count x : Int) = tf x := by
  obtain ⟨_, hrem, hpos, _, _, _⟩ := hInv
  intro x h1 h2
  have hx : x ∈ List.range' 1 R := List.mem_range'_1.mpr ⟨h1, by omega⟩
  have hmap : st.rem x ∈ (List.range' 1 R).map st.rem := List.mem_map_of_mem _ hx
  have hz := sum_zero_each ((List.range' 1 R).map st.rem)
    (fun v hv => by
      obtain ⟨y, _, rfl⟩ := List.mem_map.mp hv
      exact hpos y)
    hsum (st.rem x) hmap
  have hr := hrem x
  omega

theorem sum_base_ind (b : Int) (r : Nat) : ∀ k : Nat,
    ((List.range' 1 k).map fun x => b + if x ≤ r then (1 : Int) else 0).sum
      = k * b + (min k r : Nat) := by
  intro k
  induction k with
  | zero => simp
  | succ k ih =>
    rw [List.range'_concat, List.map_append, List.sum_append, ih]
    simp only [List.map_cons, List.map_nil, List.sum_cons, List.sum_nil, Int.add_zero]
    by_cases hk : 1 + 1 * k ≤ r
    · rw [if_pos hk]
      have hmin : min (k + 1) r = min k r + 1 := by omega
      rw [hmin]
      push_cast
      ring
    · rw [if_neg hk]
      have hmin : min (k + 1) r = min k r := by omega
      rw [hmin]
      push_cast
      ring

theorem sum_map_sub_one : ∀ (L : List Nat), (∀ c ∈ L, 1 ≤ c) →
    (L.map fun c => c - 1).sum = L.sum - L.length := by
  intro L
  induction L with
  | nil => simp
  | cons c t ih =>
    intro h
    have hc : 1 ≤ c := h c (by simp)
    have hts : t.length ≤ t.sum := by
      have := List.length_le_sum_of_one_le t fun i hi => h i (by simp [hi])
      exact this
    rw [List.map_cons, List.sum_cons, List.sum_cons, ih fun i hi => h i (by simp [hi])]
    simp only [List.length_cons]
    omega

theorem sum_counts_dedup : ∀ (l : List (List Nat)),
    (l.dedup.map fun s => l.count s).sum = l.length := by
  intro l
  induction l with
  | nil => simp
  | cons a t ih =>
    have hconv : ∀ (keys : List (List Nat)),
        keys.map (fun s => (a :: t).count s)
          = keys.map fun s => t.count s + if s = a then 1 else 0 := by
      intro keys
      apply List.map_congr_left
      intro s _
      rw [List.count_cons]
      exact congrArg (t.count s + ·)
        (if_congr (by rw [beq_iff_eq]; exact eq_comm) rfl rfl)
    by_cases ha : a ∈ t
    · rw [List.dedup_cons_of_mem ha, hconv, List.sum_map_add, ih,
        indicator_sum t.dedup (List.nodup_dedup t) a (List.mem_dedup.mpr ha)]
      simp
    · rw [List.dedup_cons_of_not_mem ha, hconv, List.sum_map_add]
      have hind : ((a :: t.dedup).map fun s => if s = a then (1 : Nat) else 0).sum = 1 :=
        indicator_sum (a :: t.dedup)
          (List.nodup_cons.mpr ⟨fun hm => ha (List.mem_dedup.mp hm), List.nodup_dedup t⟩)
          a (by simp)
      have hca : t.count a = 0 := List.count_eq_zero.mpr ha
      rw [hind]
      simp only [List.map_cons, List.sum_cons, hca, List.length_cons]
      rw [ih]
      omega

/-- The collision total of `count_set_collisions` is the number of signatures
minus the number of distinct signatures. -/
theorem collision_count_eq (sigs : List (List Nat)) :
    collision_count sigs = sigs.length - sigs.dedup.length := by
  rw [collision_count]
  have h1 : (sigs.dedup.map fun s => if 1 < sigs.count s then sigs.count s - 1 else 0)
      = sigs.dedup.map fun s => sigs.count s - 1 := by
    apply List.map_congr_left
    intro s hs
    have hc : 1 ≤ sigs.count s :=
      List.count_pos_iff.mpr (List.mem_dedup.mp hs)
    by_cases hlt : 1 < sigs.count s
    · rw [if_pos hlt]
    · rw [if_neg hlt]
      omega
  rw [h1]
  have h2 : (sigs.dedup.map fun s => sigs.count s - 1)
      = (sigs.dedup.map fun s => sigs.count s).map fun c => c - 1 := by
    rw [List.map_map]
    rfl
  rw [h2, sum_map_sub_one _ (by
    intro c hc
    obtain ⟨s, hs, rfl⟩ := List.mem_map.mp hc
    exact List.count_pos_iff.mpr (List.mem_dedup.mp hs))]
  rw [sum_counts_dedup sigs, List.length_map]

theorem map_range_getD {α : Type} (T t : Nat) (f : Nat → α) (d : α) (ht : t < T) :
    ((List.range T).map f).getD t d = f t := by
  have hlen : t < ((List.range T).map f).length := by simpa using ht
  rw [List.getD_eq_getElem _ d hlen]
  simp

/-- C4: for every `R ≥ 1`, the near-mode frequency plan with `P = T*m*n`,
`base = P / R` and `remainder = P % R` (the pair computed by
`compute_near_uniform_targets`) assigns `base + 1` uses to each number in
`1..remainder` and `base` uses to every other pool number, its total over the
pool is exactly `P`, and any two planned counts differ by at most `1`. -/
theorem C4_near_plan (R T m n : Nat) (hR : 1 ≤ R) :
    compute_near_uniform_targets R T m n = ((T * m * n) / R, (T * m * n) % R) ∧
    ∃ tf, build_global_frequencies R T m n "near" = .ok tf ∧
      (∀ x, 1 ≤ x → x ≤ R →
        tf x = (((T * m * n) / R : Nat) : Int)
          + (if x ≤ (T * m * n) % R then 1 else 0)) ∧
      ((List.range' 1 R).map tf).sum = ((T * m * n : Nat) : Int) ∧
      (∀ x y, 1 ≤ x → x ≤ R → 1 ≤ y → y ≤ R → tf x ≤ tf y + 1) := by
  refine ⟨rfl, ?_⟩
  have hR0 : ¬ R = 0 := by omega
  refine ⟨fun x => if 1 ≤ x ∧ x ≤ R then (((T * m * n) / R : Nat) : Int)
    + (if x ≤ (T * m * n) % R then 1 else 0) else 0, ?_, ?_, ?_, ?_⟩
  · simp [build_global_frequencies, hR0]
  · intro x h1 h2
    have hc : 1 ≤ x ∧ x ≤ R := ⟨h1, h2⟩
    beta_reduce
    rw [if_pos hc]
  · have hcongr : (List.range' 1 R).map
        (fun x => if 1 ≤ x ∧ x ≤ R then (((T * m * n) / R : Nat) : Int)
          + (if x ≤ (T * m * n) % R then 1 else 0) else 0)
        = (List.range' 1 R).map
          fun x => (((T * m * n) / R : Nat) : Int)
            + (if x ≤ (T * m * n) % R then 1 else 0) := by
      apply List.map_congr_left
      intro x hx
      rw [if_pos (mem_range'_one hx)]
    rw [hcongr, sum_base_ind]
    have hlt : (T * m * n) % R < R := Nat.mod_lt _ (by omega)
    rw [min_eq_right (by omega : (T * m * n) % R ≤ R)]
    exact_mod_cast Nat.div_add_mod (T * m * n) R
  · intro x y hx1 hx2 hy1 hy2
    have hcx : 1 ≤ x ∧ x ≤ R := ⟨hx1, hx2⟩
    have hcy : 1 ≤ y ∧ y ≤ R := ⟨hy1, hy2⟩
    beta_reduce
    rw [if_pos hcx, if_pos hcy]
    split_ifs <;> omega

/-- C4 witness at the specification's example `R = 10, T = 3, m = 2, n = 2`:
`P = 12`, `base = 1`, `remainder = 2`, and the plan sums to `12`. -/
theorem C4_near_plan_witness :
    compute_near_uniform_targets 10 3 2 2 = (1, 2) ∧
    ∃ tf, build_global_frequencies 10 3 2 2 "near" = .ok tf ∧
      ((List.range' 1 10).map tf).sum = (12 : Int) := by
  obtain ⟨h0, tf, h1, _, h3, _⟩ := C4_near_plan 10 3 2 2 (by omega)
  exact ⟨by rw [h0], tf, h1, by rw [h3]; norm_num⟩

/-- C5: for every `R ≥ 1` with `(T*m*n) % R ≠ 0` (the modulus presupposes a
positive `R`; Python raises `ZeroDivisionError` at `R = 0`), the planner in
strict mode does not raise: it returns the map assigning `(T*m*n) / R` to
every pool number, whose total over `1..R` is strictly less than `T*m*n`. -/
theorem C5_strict_silent_shortfall (R T m n : Nat) (hR : 1 ≤ R)
    (hmod : (T * m * n) % R ≠ 0) :
    ∃ tf, build_global_frequencies R T m n "strict" = .ok tf ∧
      (∀ x, 1 ≤ x → x ≤ R → tf x = (((T * m * n) / R : Nat) : Int)) ∧
      ((List.range' 1 R).map tf).sum < ((T * m * n : Nat) : Int) := by
  have hR0 : ¬ R = 0 := by omega
  refine ⟨fun x => if 1 ≤ x ∧ x ≤ R then (((T * m * n) / R : Nat) : Int) else 0,
    ?_, ?_, ?_⟩
  · simp [build_global_frequencies, hR0]
  · intro x h1 h2
    have hc : 1 ≤ x ∧ x ≤ R := ⟨h1, h2⟩
    beta_reduce
    rw [if_pos hc]
  · have hcongr : (List.range' 1 R).map
        (fun x => if 1 ≤ x ∧ x ≤ R then (((T * m * n) / R : Nat) : Int) else 0)
        = (List.range' 1 R).map
          fun x => (((T * m * n) / R : Nat) : Int) + (if x ≤ 0 then 1 else 0) := by
      apply List.map_congr_left
      intro x hx
      have hb := mem_range'_one hx
      rw [if_pos hb, if_neg (by omega : ¬ x ≤ 0)]
      omega
    rw [hcongr, sum_base_ind]
    have h1 : R * ((T * m * n) / R) + (T * m * n) % R = T * m * n :=
      Nat.div_add_mod (T * m * n) R
    have h2 : 1 ≤ (T * m * n) % R := Nat.one_le_iff_ne_zero.mpr hmod
    have h3 : R * ((T * m * n) / R) < T * m * n :=
      lt_of_lt_of_eq (Nat.lt_add_of_pos_right (by omega)) h1
    simp only [Nat.min_zero, Nat.cast_zero, Int.add_zero]
    exact_mod_cast h3

/-- C5 witness at `R = 10, T = 3, m = 2, n = 2`: `P = 12`, `12 % 10 = 2 ≠ 0`,
the strict plan assigns `1` everywhere and totals `10 < 12`. -/
theorem C5_strict_silent_shortfall_witness :
    (12 : Nat) % 10 ≠ 0 ∧
    ∃ tf, build_global_frequencies 10 3 2 2 "strict" = .ok tf ∧
      ((List.range' 1 10).map tf).sum < (12 : Int) := by
  obtain ⟨tf, h1, _, h3⟩ := C5_strict_silent_shortfall 10 3 2 2 (by omega) (by decide)
  refine ⟨by decide, tf, h1, ?_⟩
  have : ((3 * 2 * 2 : Nat) : Int) = 12 := by norm_num
  rw [← this]
  exact h3

/-- C6: `check_uniqueness_capacity` is feasible exactly when every requested
scope passes its capacity bound — `T*m ≤ C(R,n)` when `row_sets` is
requested, `T*n ≤ C(R,m)` when `col_sets` is — each failing requested check
contributes one reason string, and an empty scope is feasible with no
reasons. -/
theorem C6_capacity_check (R T m n : Nat) (unique_scope : List String) :
    ((check_uniqueness_capacity R T m n unique_scope).feasible = true ↔
      (("row_sets" ∈ unique_scope → T * m ≤ R.choose n) ∧
       ("col_sets" ∈ unique_scope → T * n ≤ R.choose m))) ∧
    (check_uniqueness_capacity R T m n unique_scope).reasons.length =
      ((if "row_sets" ∈ unique_scope ∧ ¬ T * m ≤ R.choose n then 1 else 0) +
       (if "col_sets" ∈ unique_scope ∧ ¬ T * n ≤ R.choose m then 1 else 0)) ∧
    (unique_scope = [] →
      (check_uniqueness_capacity R T m n unique_scope).feasible = true ∧
      (check_uniqueness_capacity R T m n unique_scope).reasons = []) := by
  by_cases hr : "row_sets" ∈ unique_scope <;>
    by_cases hc : "col_sets" ∈ unique_scope <;>
      by_cases h1 : T * m ≤ R.choose n <;>
        by_cases h2 : T * n ≤ R.choose m <;>
          simp [check_uniqueness_capacity, hr, hc, h1, h2] <;>
            intro he <;> subst he <;> simp at hr hc

/-- C6 witness: the empty scope is feasible with no reasons, and with both
scopes requested at `R = 2, T = 10, m = 2, n = 2` both checks fail
(`20 > C(2,2) = 1`), producing two reasons. -/
theorem C6_capacity_check_witness :
    ((check_uniqueness_capacity 2 10 2 2 []).feasible = true ∧
      (check_uniqueness_capacity 2 10 2 2 []).reasons = []) ∧
    (check_uniqueness_capacity 2 10 2 2 ["row_sets", "col_sets"]).reasons.length = 2 := by
  refine ⟨(C6_capacity_check 2 10 2 2 []).2.2 rfl, ?_⟩
  have h := (C6_capacity_check 2 10 2 2 ["row_sets", "col_sets"]).2.1
  rw [h]
  decide

/-- C9: for every card list and scope, `count_set_collisions` reports, for
each requested scope, the sum over distinct signatures of (occurrences − 1) —
equal to total signatures minus distinct signatures — over all cards, and
reports `0` with `checked = false` for a scope that is not requested. -/
theorem C9_collision_report (cards : List Card) (scope : List String) :
    ("row_sets" ∈ scope →
      (count_set_collisions cards scope).row_sets_checked = true ∧
      (count_set_collisions cards scope).row_set_collisions =
        ((cards.map row_sets_of_card).flatten).length
          - ((cards.map row_sets_of_card).flatten).dedup.length) ∧
    ("row_sets" ∉ scope →
      (count_set_collisions cards scope).row_sets_checked = false ∧
      (count_set_collisions cards scope).row_set_collisions = 0) ∧
    ("col_sets" ∈ scope →
      (count_set_collisions cards scope).col_sets_checked = true ∧
      (count_set_collisions cards scope).col_set_collisions =
        ((cards.map col_sets_of_card).flatten).length
          - ((cards.map col_sets_of_card).flatten).dedup.length) ∧
    ("col_sets" ∉ scope →
      (count_set_collisions cards scope).col_sets_checked = false ∧
      (count_set_collisions cards scope).col_set_collisions = 0) := by
  by_cases hr : "row_sets" ∈ scope <;> by_cases hc : "col_sets" ∈ scope <;>
    simp [count_set_collisions, hr, hc, collision_count_eq]

/-- C9 witness: two cards sharing a row signature and a column signature
under both scopes give one collision each, and an empty scope reports zero
with `checked = false`. -/
theorem C9_collision_report_witness :
    ((count_set_collisions [[[1, 2], [3, 4]], [[2, 1], [4, 3]]]
        ["row_sets", "col_sets"]).row_set_collisions = 2) ∧
    ((count_set_collisions [[[1, 2], [3, 4]], [[2, 1], [4, 3]]]
        []).row_set_collisions = 0 ∧
     (count_set_collisions [[[1, 2], [3, 4]], [[2, 1], [4, 3]]]
        []).row_sets_checked = false) := by
  constructor
  · have h := (C9_collision_report [[[1, 2], [3, 4]], [[2, 1], [4, 3]]]
      ["row_sets", "col_sets"]).1 (by decide)
    rw [h.2]
    decide
  · have h := (C9_collision_report [[[1, 2], [3, 4]], [[2, 1], [4, 3]]] []).2.1
      (by decide)
    exact ⟨h.2, h.1⟩

/-- C8: for `R ≥ 1` (Python raises `ZeroDivisionError` at `R = 0`),
`build_cards_bibd` returns `None` exactly when strict uniformity's
divisibility fails, or `R < m*n`, or some produced row has an internal
duplicate; otherwise it returns `T` cards whose cell at card `t`, row `i`,
column `j` is `((i*n + j + t*k) % R) + 1` for the step `k` found by
`_find_coprime_step R (m*n + 1)`. -/
theorem C8_bibd_characterization (R T m n : Nat) (u : String) (hR : 1 ≤ R) :
    (build_cards_bibd R T m n u = none ↔
      (u = "strict" ∧ (T * m * n) % R ≠ 0) ∨ R < m * n ∨
      ∃ t < T, ∃ i < m,
        ¬ ((List.range n).map fun j =>
            (i * n + j + t * _find_coprime_step R (m * n + 1)) % R + 1).Nodup) ∧
    ∀ cards, build_cards_bibd R T m n u = some cards →
      cards.length = T ∧ ∀ t, t < T → ∀ i, i < m → ∀ j, j < n →
        ((cards.getD t []).getD i []).getD j 0
          = (i * n + j + t * _find_coprime_step R (m * n + 1)) % R + 1 := by
  have _ := hR
  set k := _find_coprime_step R (m * n + 1) with hk
  have hany : (((List.range T).map (bibdCard R k n m)).any
      fun mat => mat.any fun row => decide (row.dedup.length ≠ row.length)) = true ↔
      ∃ t < T, ∃ i < m,
        ¬ ((List.range n).map fun j => (i * n + j + t * k) % R + 1).Nodup := by
    simp only [List.any_eq_true, List.mem_map, List.mem_range, decide_eq_true_eq, bibdCard]
    constructor
    · rintro ⟨mat, ⟨t, ht, rfl⟩, row, hrow, hd⟩
      rcases List.mem_map.mp hrow with ⟨i, him, rfl⟩
      rw [List.mem_range] at him
      exact ⟨t, ht, i, him, fun hnd => hd (by rw [(nodup_iff_dedup_length _).mp hnd])⟩
    · rintro ⟨t, ht, i, hi, hnd⟩
      refine ⟨_, ⟨t, ht, rfl⟩, _, List.mem_map_of_mem _ (List.mem_range.mpr hi), ?_⟩
      intro he
      exact hnd ((nodup_iff_dedup_length _).mpr he)
  simp only [build_cards_bibd, ← hk]
  by_cases hA : u = "strict" ∧ (T * m * n) % R ≠ 0
  · rw [if_pos hA]
    exact ⟨⟨fun _ => Or.inl hA, fun _ => rfl⟩, fun cards hc => by simp at hc⟩
  · rw [if_neg hA]
    by_cases hB : R < m * n
    · rw [if_pos hB]
      exact ⟨⟨fun _ => Or.inr (Or.inl hB), fun _ => rfl⟩, fun cards hc => by simp at hc⟩
    · rw [if_neg hB]
      by_cases hC : (((List.range T).map (bibdCard R k n m)).any
          fun mat => mat.any fun row => decide (row.dedup.length ≠ row.length)) = true
      · rw [if_pos hC]
        exact ⟨⟨fun _ => Or.inr (Or.inr (hany.mp hC)), fun _ => rfl⟩,
          fun cards hc => by simp at hc⟩
      · rw [if_neg hC]
        refine ⟨⟨fun he => by simp at he, ?_⟩, ?_⟩
        · rintro (h | h | h)
          · exact absurd h hA
          · exact absurd h hB
          · exact absurd (hany.mpr h) hC
        · intro cards hc
          injection hc with hc
          subst hc
          refine ⟨by simp, ?_⟩
          intro t ht i hi j hj
          rw [map_range_getD T t _ [] ht]
          simp only [bibdCard]
          rw [map_range_getD m i _ [] hi, map_range_getD n j _ 0 hj]

/-- C8 witness: the specification's example `R = 5, T = 2, m = 2, n = 3` with
strict uniformity returns `None` since `5 < 6`, and `R = 4, T = 1, m = 2,
n = 2` (near) returns one card following the cyclic formula. -/
theorem C8_bibd_characterization_witness :
    build_cards_bibd 5 2 2 3 "strict" = none ∧
    ∀ cards, build_cards_bibd 4 1 2 2 "near" = some cards →
      cards.length = 1 ∧
      ((cards.getD 0 []).getD 1 []).getD 1 0
        = (1 * 2 + 1 + 0 * _find_coprime_step 4 (2 * 2 + 1)) % 4 + 1 := by
  constructor
  · exact (C8_bibd_characterization 5 2 2 3 "strict" (by omega)).1.mpr
      (Or.inr (Or.inl (by omega)))
  · intro cards hc
    obtain ⟨hl, hf⟩ := (C8_bibd_characterization 4 1 2 2 "near" (by omega)).2 cards hc
    exact ⟨hl, hf 0 (by omega) 1 (by omega) 1 (by omega)⟩

/-- C1 (code bug in the source): the content-hash check is not unconditional.
With an empty `unique_scope` the fast path of `build_cards` commits cards
with no hash bookkeeping at all, and a run can return two cell-by-cell
identical cards — here the embedded code evaluated at
`R = 4, T = 2, m = 2, n = 2`, near uniformity, empty scope, under an
admissible stream whose draws are the identity shuffle. -/
theorem C1_fast_path_identical_cards :
    build_cards trivialRng 4 2 2 2 "near" [] 50
      = .ok [[[1, 2], [3, 4]], [[1, 2], [3, 4]]] ∧
    ¬ ([[[1, 2], [3, 4]], [[1, 2], [3, 4]]] : List Card).Nodup :=
  ⟨by rfl, by decide⟩

/-- C2: `build_cards` returns normally only when an attempt built all `T`
cards and exactly exhausted the budget map: a returned list has length `T`,
the per-number occurrence counts over the pool `1..R` sum to exactly `T·m·n`
and each equals its planned frequency; in every other case the function
surfaces an error value, never a partial card list. -/
theorem C2_success_means_exhaustion (rng : RngOps) (R T m n : Nat) (u : String)
    (us : List String) (ma : Nat) :
    (∀ cards, build_cards rng R T m n u us ma = .ok cards →
      cards.length = T ∧
      ((List.range' 1 R).map fun x => (occ_list cards).count x).sum = T * m * n ∧
      ∀ tf, build_global_frequencies R T m n u = .ok tf →
        ∀ x, 1 ≤ x → x ≤ R → ((occ_list cards).count x : Int) = tf x) ∧
    ((∀ cards, build_cards rng R T m n u us ma ≠ .ok cards) →
      ∃ e, build_cards rng R T m n u us ma = .error e) := by
  constructor
  · intro cards h
    obtain ⟨hmn, tf, htf, htfnn, st, hInv, hlen, hsum⟩ :=
      build_cards_ok_spec rng R T m n u us ma cards h
    refine ⟨hlen, ?_, ?_⟩
    · have hbounds : ∀ v ∈ occ_list cards, v ∈ List.range' 1 R := by
        intro v hv
        obtain ⟨card, hc, hvf⟩ := mem_occ_list hv
        have := (hInv.1 card hc).2.2.2 v hvf
        exact List.mem_range'_1.mpr ⟨this.1, by omega⟩
      rw [counts_sum (List.range' 1 R) (range'_one_nodup R) (occ_list cards) hbounds,
        occ_list_length cards m n fun card hc =>
          flatten_length_of_dims card m n (hInv.1 card hc).1 (hInv.1 card hc).2.1,
        hlen, Nat.mul_assoc]
    · intro tf2 htf2 x h1 h2
      rw [htf] at htf2
      injection htf2 with htf2
      subst htf2
      exact exhaustion_counts R m n us tf cards st hInv hsum x h1 h2
  · intro hne
    cases hE : build_cards rng R T m n u us ma with
    | error e => exact ⟨e, rfl⟩
    | ok c => exact absurd hE (hne c)

/-- C2 witness at `R = 4, T = 2, m = 2, n = 2`, near mode, empty scope: the
returned list has length `2` and its occurrence counts sum to `8`. -/
theorem C2_success_means_exhaustion_witness :
    ([[[1, 2], [3, 4]], [[1, 2], [3, 4]]] : List Card).length = 2 ∧
    ((List.range' 1 4).map fun x =>
      (occ_list [[[1, 2], [3, 4]], [[1, 2], [3, 4]]]).count x).sum = 2 * 2 * 2 := by
  have h := (C2_success_means_exhaustion trivialRng 4 2 2 2 "near" [] 50).1
    [[[1, 2], [3, 4]], [[1, 2], [3, 4]]] (by rfl)
  exact ⟨h.1, h.2.1⟩

/-- C3: every card of a successful `build_cards` run is an `m × n` matrix of
pairwise distinct cells in `[1, R]`, and for `R < m*n` the function fails
immediately with the configuration error, before any construction work. -/
theorem C3_shape_and_guard (rng : RngOps) (R T m n : Nat) (u : String)
    (us : List String) (ma : Nat) :
    (∀ cards, build_cards rng R T m n u us ma = .ok cards →
      ∀ card ∈ cards, card.length = m ∧ (∀ row ∈ card, row.length = n) ∧
        card.flatten.Nodup ∧ ∀ v ∈ card.flatten, 1 ≤ v ∧ v ≤ R) ∧
    (R < m * n → build_cards rng R T m n u us ma
      = .error "R must be >= m*n to avoid duplicates within a card") := by
  constructor
  · intro cards h
    obtain ⟨_, tf, _, _, st, hInv, _, _⟩ :=
      build_cards_ok_spec rng R T m n u us ma cards h
    exact hInv.1
  · intro hlt
    simp only [build_cards]
    rw [if_pos hlt]

/-- C3 witness: the run at `R = 4, T = 2, m = 2, n = 2` yields `2 × 2` cards
of distinct in-range cells, and `R = 1 < 2 = m*n` raises the configuration
error. -/
theorem C3_shape_and_guard_witness :
    (∀ card ∈ ([[[1, 2], [3, 4]], [[1, 2], [3, 4]]] : List Card),
      card.length = 2 ∧ (∀ row ∈ card, row.length = 2) ∧
      card.flatten.Nodup ∧ ∀ v ∈ card.flatten, 1 ≤ v ∧ v ≤ 4) ∧
    build_cards trivialRng 1 1 2 1 "near" [] 1
      = .error "R must be >= m*n to avoid duplicates within a card" :=
  ⟨(C3_shape_and_guard trivialRng 4 2 2 2 "near" [] 50).1 _ (by rfl),
    (C3_shape_and_guard trivialRng 1 1 2 1 "near" [] 1).2 (by omega)⟩

/-- C7 as stated is false on the code at `n = 0`: a successful call with
`row_sets` in scope can return one card whose two width-`0` rows share the
empty sorted tuple, because rows of one card are only checked against the
registry of previously accepted cards, never against each other. -/
theorem C7_zero_width_counterexample :
    build_cards trivialRng 1 1 2 0 "near" ["row_sets"] 1 = .ok [[[], []]] ∧
    "row_sets" ∈ (["row_sets"] : List String) ∧
    ¬ ((([[[], []]] : List Card).map row_sets_of_card).flatten).Nodup :=
  ⟨by rfl, by decide, by decide⟩

/-- C7 (amended: the row clause additionally requires `n ≥ 1`, since two
width-`0` rows of one accepted card share the empty signature): for every
successful `build_cards` call, when `row_sets` is in scope and `n ≥ 1` no
sorted row tuple occurs twice across all rows of all returned cards, and when
`col_sets` is in scope no sorted column tuple occurs twice across all
columns of all returned cards. -/
theorem C7_global_signature_uniqueness (rng : RngOps) (R T m n : Nat) (u : String)
    (us : List String) (ma : Nat) (cards : List Card)
    (h : build_cards rng R T m n u us ma = .ok cards) :
    ("row_sets" ∈ us → 1 ≤ n → ((cards.map row_sets_of_card).flatten).Nodup) ∧
    ("col_sets" ∈ us → ((cards.map col_sets_of_card).flatten).Nodup) := by
  obtain ⟨_, tf, _, _, st, hInv, _, _⟩ :=
    build_cards_ok_spec rng R T m n u us ma cards h
  exact ⟨fun hin hn => (hInv.2.2.2.2.1 hin).2 hn, fun hin => (hInv.2.2.2.2.2 hin).2⟩

set_option maxRecDepth 200000 in
/-- C7 witness: a successful run at `R = 4, T = 1, m = 2, n = 2` with both
scopes has pairwise distinct row signatures and column signatures. -/
theorem C7_global_signature_uniqueness_witness :
    ((([[[1, 2], [3, 4]]] : List Card).map row_sets_of_card).flatten).Nodup ∧
    ((([[[1, 2], [3, 4]]] : List Card).map col_sets_of_card).flatten).Nodup := by
  have h := C7_global_signature_uniqueness trivialRng 4 1 2 2 "near"
    ["row_sets", "col_sets"] 1 [[[1, 2], [3, 4]]] (by rfl)
  exact ⟨h.1 (by decide) (by omega), h.2 (by decide)⟩

/-- C10: budgets change only at acceptance.  A successful per-card
construction inside `build_cards` decrements the remaining budget by exactly
`1` for each of the `m·n` distinct numbers placed — every one of which had
positive remaining budget — so a nonnegative budget map stays nonnegative; a
failed try yields no state at all, and each retry (`card_tries`) restarts
from the same snapshot state, so the budget map is exactly as it was before
the try. -/
theorem C10_budget_discipline (rng : RngOps) (us : List String) (R m n : Nat)
    (st : AState) (c : Nat) (hnn : ∀ x, 0 ≤ st.rem x) :
    ∀ out c', build_one_card rng us R m n st c = (some out, c') →
      out.1.flatten.Nodup ∧ out.1.flatten.length = m * n ∧
      (∀ y, out.2.rem y = if y ∈ out.1.flatten then st.rem y - 1 else st.rem y) ∧
      (∀ y ∈ out.1.flatten, 0 < st.rem y) ∧ ∀ y, 0 ≤ out.2.rem y := by
  intro out c' h
  have hInv : RunInv R m n us st.rem [] st := by
    refine ⟨by simp, ?_, hnn, fun _ => ⟨List.nodup_nil, by simp⟩,
      fun _ => ⟨by simp [occ_list], by simp [occ_list]⟩,
      fun _ => ⟨by simp [occ_list], by simp [occ_list]⟩⟩
    intro x
    simp [occ_list]
  have hpres := build_one_card_preserve rng us R m n st.rem [] st c hInv out c' h
  obtain ⟨hprops, hrem, hpos2, _, _, _⟩ := hpres
  have hcard := hprops out.1 (by simp)
  have hnd : out.1.flatten.Nodup := hcard.2.2.1
  have hflatlen : out.1.flatten.length = m * n :=
    flatten_length_of_dims out.1 m n hcard.1 hcard.2.1
  have hremf : ∀ y, out.2.rem y
      = if y ∈ out.1.flatten then st.rem y - 1 else st.rem y := by
    intro y
    have hr := hrem y
    have hocc : occ_list ([] ++ [out.1]) = out.1.flatten := by
      simp [occ_list]
    rw [hocc, count_ite_of_nodup _ hnd y] at hr
    rw [hr]
    by_cases hy : y ∈ out.1.flatten
    · rw [if_pos hy]
      rw [if_pos hy]
      push_cast
      omega
    · rw [if_neg hy]
      rw [if_neg hy]
      push_cast
      omega
  refine ⟨hnd, hflatlen, hremf, ?_, hpos2⟩
  intro y hy
  have h1 := hpos2 y
  have h2 := hremf y
  rw [if_pos hy] at h2
  omega

/-- The budget state used by the C10 witness: every pool number `1..4` has
two remaining uses, registries empty. -/
def c10State : AState :=
  ⟨fun x => if 1 ≤ x ∧ x ≤ 4 then 2 else 0, [], [], []⟩

/-- The card and state produced by `build_one_card` on the C10 witness
input. -/
def c10Out : Card × AState :=
  ((build_one_card trivialRng [] 4 2 2 c10State 0).1).getD ([], c10State)

/-- C10 witness: one concrete accepted card pays exactly one budget unit per
cell and keeps the budget nonnegative. -/
theorem C10_budget_discipline_witness :
    (∀ x, 0 ≤ c10State.rem x) ∧
    (c10Out.1.flatten.Nodup ∧ c10Out.1.flatten.length = 2 * 2 ∧
      (∀ y, c10Out.2.rem y
        = if y ∈ c10Out.1.flatten then c10State.rem y - 1 else c10State.rem y) ∧
      (∀ y ∈ c10Out.1.flatten, 0 < c10State.rem y) ∧ ∀ y, 0 ≤ c10Out.2.rem y) := by
  have hnn : ∀ x, 0 ≤ c10State.rem x := by
    intro x
    show (0 : Int) ≤ if 1 ≤ x ∧ x ≤ 4 then 2 else 0
    split <;> omega
  refine ⟨hnn, ?_⟩
  exact C10_budget_discipline trivialRng [] 4 2 2 c10State 0 hnn c10Out
    (build_one_card trivialRng [] 4 2 2 c10State 0).2 (by rfl)
